import Mathlib

/-!
Verification of the Archon task-hierarchy engine.

This file embeds, as executable Lean definitions, the four components of the
hierarchy engine:

* the Forest Builder (`buildTaskTree` in
  `archon-ui-main/src/lib/task-tree-utils.ts`),
* the Flattening Projector (`flattenTaskTree`, same file),
* the Hierarchy Index (the maps and query closures produced by the
  `useTaskHierarchy` hook),
* the Relationship Validator (`getDescendantIds` / `canBeParent`, same file
  as the Builder).

The source code represents the mutable `Map` objects of the TypeScript code
as functions; each pass of the original algorithm becomes a fold carrying the
same state.  JavaScript truthiness of the optional `parent_task_id` string is
modelled explicitly (the empty string is falsy).  The unbounded recursions of
the original (ancestor walk, descendant walk, tree materialisation) are given
a fuel parameter; the canonical fuel `tasks.length + 1` is provably exact for
acyclic inputs, which is established where the claims need it.
-/

namespace Archon

/-- A task record.  `id`, `parent_task_id` and `task_order` are the fields the
engine inspects; `payload` stands for the remaining attributes (`title`,
`description`, `status`, `assignee`, `feature`, ...) which the engine copies
but never reads. -/
structure Task where
  id : String
  parent_task_id : Option String
  task_order : Int
  payload : String
deriving DecidableEq

/-- The parent reference of a task as JavaScript truthiness sees it:
`if (task.parent_task_id)` is false for `undefined` and for the empty
string. -/
def parentRef (t : Task) : Option String :=
  match t.parent_task_id with
  | none => none
  | some p => if p = "" then none else some p

/-- Whether some task in the collection carries the given id (i.e. whether
the pass-1 `taskMap` of the Builder has an entry for it). -/
def hasId (tasks : List Task) (p : String) : Bool :=
  tasks.any (fun t => t.id == p)

/-- The pass-1 `taskMap` of the Builder: id to task record, last write wins
as with `Map.set`. -/
def tmStep (m : String → Option Task) (t : Task) : String → Option Task :=
  fun x => if x = t.id then some t else m x

def taskMapFn (tasks : List Task) : String → Option Task :=
  tasks.foldl tmStep (fun _ => none)

/-- `parentMap` of the Hierarchy Index: an entry for each task with a truthy
parent reference, mapping the task id to the referenced id. -/
def pmStep (m : String → Option String) (t : Task) : String → Option String :=
  match parentRef t with
  | some p => fun x => if x = t.id then some p else m x
  | none => m

def parentMapFn (tasks : List Task) : String → Option String :=
  tasks.foldl pmStep (fun _ => none)

/-- `childrenMap` of the Hierarchy Index: for each referenced parent id, the
ids of the tasks referencing it, in input order.  The TypeScript map has an
entry exactly when the list here is nonempty. -/
def cmStep (m : String → List String) (t : Task) : String → List String :=
  match parentRef t with
  | some p => fun x => if x = p then m p ++ [t.id] else m x
  | none => m

def childrenMapFn (tasks : List Task) : String → List String :=
  tasks.foldl cmStep (fun _ => [])

/-- `getParent` query of the Hierarchy Index. -/
def getParent (tasks : List Task) (id : String) : Option String :=
  parentMapFn tasks id

/-- `getChildren` query of the Hierarchy Index (empty when no entry). -/
def getChildren (tasks : List Task) (id : String) : List String :=
  childrenMapFn tasks id

/-- `hasChildren` query: `childrenMap.has(taskId)`. -/
def hasChildren (tasks : List Task) (id : String) : Bool :=
  !(childrenMapFn tasks id).isEmpty

/-- `isRoot` query: `!parentMap.has(taskId)`. -/
def isRoot (tasks : List Task) (id : String) : Bool :=
  (parentMapFn tasks id).isNone

/-- `isLeaf` query: `!childrenMap.has(taskId)`. -/
def isLeaf (tasks : List Task) (id : String) : Bool :=
  (childrenMapFn tasks id).isEmpty

/-- The ancestor walk of `getAncestors`, following an arbitrary parent map
until no entry exists, with explicit fuel. -/
def ancFuel (pm : String → Option String) : Nat → String → List String
  | 0, _ => []
  | fuel + 1, id =>
    match pm id with
    | none => []
    | some p => p :: ancFuel pm fuel p

/-- `getAncestors` of the Hierarchy Index at the canonical fuel. -/
def getAncestors (tasks : List Task) (id : String) : List String :=
  ancFuel (parentMapFn tasks) (tasks.length + 1) id

/-- `getDepth` of the Hierarchy Index: the length of the ancestor list. -/
def getDepth (tasks : List Task) (id : String) : Nat :=
  (getAncestors tasks id).length

/-- The recursive descendant count of the Hierarchy Index
(`children.length` plus the recursive count of every child), with fuel. -/
def descCountFuel (tasks : List Task) : Nat → String → Nat
  | 0, _ => 0
  | fuel + 1, id =>
    (childrenMapFn tasks id).length
      + ((childrenMapFn tasks id).map (descCountFuel tasks fuel)).sum

/-- `getDescendantCount` of the Hierarchy Index at the canonical fuel. -/
def getDescendantCount (tasks : List Task) (id : String) : Nat :=
  descCountFuel tasks (tasks.length + 1) id

/-- The recursive walk of the Relationship Validator's `getDescendantIds`:
for each task whose `parent_task_id` is strictly equal (`===`) to the current
id, push its id and recurse into it.  Note that no truthiness filter is
applied here, unlike in the Index maps. -/
def descIdsFuel (tasks : List Task) : Nat → String → List String
  | 0, _ => []
  | fuel + 1, parentId =>
    tasks.flatMap
      (fun t =>
        if t.parent_task_id = some parentId then
          t.id :: descIdsFuel tasks fuel t.id
        else [])

/-- `getDescendantIds` of the Relationship Validator at the canonical fuel. -/
def getDescendantIds (taskId : String) (tasks : List Task) : List String :=
  descIdsFuel tasks (tasks.length + 1) taskId

/-- `canBeParent` of the Relationship Validator: a task cannot be its own
parent, and the candidate parent must not be among the task's descendants. -/
def canBeParent (taskId potentialParentId : String) (tasks : List Task) : Bool :=
  if taskId == potentialParentId then false
  else !(getDescendantIds taskId tasks).contains potentialParentId

/-- The mutable state of the Builder's second pass: the children-id lists of
each node, the root list, and the depth assigned to each node (pass 1
initialises every depth to zero). -/
structure BuildState where
  childAcc : String → List String
  rootIds : List String
  depthM : String → Nat

/-- One step of the Builder's second pass, for one task record: a task with a
truthy parent reference that resolves in the pass-1 map is appended to the
parent's children and gets depth `parent.depth + 1` as currently recorded;
any other task is appended to the root list. -/
def pass2Step (tasks : List Task) (s : BuildState) (t : Task) : BuildState :=
  match parentRef t with
  | some p =>
    if hasId tasks p then
      ⟨fun x => if x = p then s.childAcc p ++ [t.id] else s.childAcc x,
       s.rootIds,
       fun x => if x = t.id then s.depthM p + 1 else s.depthM x⟩
    else
      ⟨s.childAcc, s.rootIds ++ [t.id], s.depthM⟩
  | none => ⟨s.childAcc, s.rootIds ++ [t.id], s.depthM⟩

/-- The Builder's second pass over the whole input. -/
def pass2 (tasks : List Task) : BuildState :=
  tasks.foldl (pass2Step tasks) ⟨fun _ => [], [], fun _ => 0⟩

/-- The task record a node id resolves to (the pass-1 map entry; a synthetic
record for ids outside the map, which the Builder never materialises). -/
def taskOf (tasks : List Task) (id : String) : Task :=
  (taskMapFn tasks id).getD ⟨id, none, 0, ""⟩

/-- The sibling sort key: the node's `task_order`. -/
def orderOf (tasks : List Task) (id : String) : Int :=
  (taskOf tasks id).task_order

/-- The Builder's third pass on one sibling list: a stable sort ascending by
`task_order` (JavaScript's `Array.sort` with comparator
`a.task_order - b.task_order` is a stable comparison sort). -/
def sortIds (tasks : List Task) (ids : List String) : List String :=
  ids.insertionSort (fun a b => orderOf tasks a ≤ orderOf tasks b)

/-- A node of the hierarchical forest: the task record by value, the ordered
children, the `isExpanded` display flag and the `depth` field. -/
inductive TaskNode where
  | mk (task : Task) (children : List TaskNode) (isExpanded : Bool) (depth : Nat)

def TaskNode.task : TaskNode → Task
  | .mk t _ _ _ => t

def TaskNode.children : TaskNode → List TaskNode
  | .mk _ c _ _ => c

def TaskNode.isExpanded : TaskNode → Bool
  | .mk _ _ e _ => e

def TaskNode.depth : TaskNode → Nat
  | .mk _ _ _ d => d

def TaskNode.id (n : TaskNode) : String := n.task.id

def TaskNode.task_order (n : TaskNode) : Int := n.task.task_order

/-- Materialisation of the node object graph left by the Builder's passes:
the node for an id carries its task record, its sorted children (recursively
materialised), `isExpanded = true` and the depth assigned in pass 2.  The
fuel bounds the depth of the materialisation; at the canonical fuel it is
exact for every node reachable from the root list of an acyclic input. -/
def buildNode (tasks : List Task) : Nat → String → TaskNode
  | 0, id => .mk (taskOf tasks id) [] true ((pass2 tasks).depthM id)
  | fuel + 1, id =>
    .mk (taskOf tasks id)
      ((sortIds tasks ((pass2 tasks).childAcc id)).map (buildNode tasks fuel))
      true
      ((pass2 tasks).depthM id)

/-- `buildTaskTree`: the sorted root list with materialised subtrees. -/
def buildTaskTree (tasks : List Task) : List TaskNode :=
  (sortIds tasks (pass2 tasks).rootIds).map (buildNode tasks (tasks.length + 1))

mutual

/-- The Projector's visit of a single node: emit a shallow copy with `depth`
overridden to the traversal depth, then its children (one level deeper) iff
the node's id is in the expanded set or its own `isExpanded` flag is set. -/
def flattenOne (expandedIds : List String) : TaskNode → Nat → List TaskNode
  | .mk t cs e _, depth =>
    .mk t cs e depth ::
      (if expandedIds.contains t.id || e then flattenNodes expandedIds cs (depth + 1)
       else [])

/-- The Projector's traversal of a sibling list. -/
def flattenNodes (expandedIds : List String) : List TaskNode → Nat → List TaskNode
  | [], _ => []
  | n :: rest, depth =>
    flattenOne expandedIds n depth ++ flattenNodes expandedIds rest depth

end

/-- `flattenTaskTree`: pre-order, expand-state-aware flattening starting at
depth 0. -/
def flattenTaskTree (taskNodes : List TaskNode) (expandedIds : List String) :
    List TaskNode :=
  flattenNodes expandedIds taskNodes 0

/-- The shallow copy `{...node, depth}` made by the Projector. -/
def setDepth (n : TaskNode) (d : Nat) : TaskNode :=
  .mk n.task n.children n.isExpanded d

mutual

/-- All nodes of a forest (each node together with its descendants). -/
def allNodes : List TaskNode → List TaskNode
  | [] => []
  | n :: rest => allNodesOne n ++ allNodes rest

def allNodesOne : TaskNode → List TaskNode
  | .mk t cs e d => .mk t cs e d :: allNodes cs

end

/-- Whether a task record is attached to a parent in pass 2 (truthy and
resolvable reference). -/
def isChildRec (tasks : List Task) (t : Task) : Bool :=
  match parentRef t with
  | some p => hasId tasks p
  | none => false

/-- An acyclicity certificate for a task collection: a rank function that
strictly decreases along every parent-map edge, bounded by the collection
size on the ids actually present.  Such a function exists exactly when the
(truthy) parent relation is acyclic: the length of the ancestor chain of an
id is one such rank. -/
def rankCert (tasks : List Task) (rank : String → Nat) : Prop :=
  (∀ id p, parentMapFn tasks id = some p → rank p < rank id)
  ∧ (∀ t ∈ tasks, rank t.id ≤ tasks.length)

/-- Decidable form of the certificate, checked record by record. -/
def rankCertB (tasks : List Task) (rank : String → Nat) : Bool :=
  tasks.all fun t =>
    (match parentRef t with
     | some p => rank p < rank t.id
     | none => true)
    && (rank t.id ≤ tasks.length)

/-- The parent relation the Builder actually links along: the truthy parent
reference when it resolves in the collection, and nothing otherwise. -/
def bparentFn (tasks : List Task) (id : String) : Option String :=
  match parentMapFn tasks id with
  | none => none
  | some p => if hasId tasks p then some p else none

/-- The ancestor chain along the Builder's resolvable parent relation. -/
def ancTree (tasks : List Task) (id : String) : List String :=
  ancFuel (bparentFn tasks) (tasks.length + 1) id

/-- The pre-order id sequence of the materialised subtree below an id, with
the same fuel discipline as `buildNode`. -/
def reachIds (tasks : List Task) : Nat → String → List String
  | 0, id => [id]
  | fuel + 1, id =>
    id :: (sortIds tasks ((pass2 tasks).childAcc id)).flatMap (reachIds tasks fuel)

mutual

/-- Whether consecutive siblings of a forest are in ascending `task_order`,
recursively. -/
def sortedForest : List TaskNode → Bool
  | [] => true
  | [n] => sortedNode n
  | a :: b :: rest =>
    (a.task_order ≤ b.task_order) && sortedNode a && sortedForest (b :: rest)

def sortedNode : TaskNode → Bool
  | .mk _ cs _ _ => sortedForest cs

end

/-- Every task record appears after its parent's record in the input
sequence (when that parent resolves).  This is the input-ordering condition
under which the Builder's single-scan depth assignment reads an
already-final parent depth. -/
def ParentsFirst (tasks : List Task) : Prop :=
  ∀ l₁ t l₂, tasks = l₁ ++ t :: l₂ → ∀ p, parentRef t = some p →
    hasId tasks p = true → p ∈ l₁.map Task.id

/-- A three-task chain listed child-first (grandchild before both
ancestors). -/
def exChain : List Task :=
  [⟨"C", some "B", 0, ""⟩, ⟨"B", some "A", 0, ""⟩, ⟨"A", none, 0, ""⟩]

/-- The same chain listed parents-first. -/
def exChainSorted : List Task :=
  [⟨"A", none, 0, ""⟩, ⟨"B", some "A", 0, ""⟩, ⟨"C", some "B", 0, ""⟩]

/-- A rank certificate function for the three-task chain. -/
def rankChain : String → Nat :=
  fun s => if s = "B" then 1 else if s = "C" then 2 else 0

/-- The sibling-ordering scenario of the spec: one parent, two children with
descending `task_order` in input order. -/
def exScenario : List Task :=
  [⟨"P", none, 0, ""⟩, ⟨"C1", some "P", 2, ""⟩, ⟨"C2", some "P", 1, ""⟩]

/-- Decidable check of `ParentsFirst`, scanning positions with `take` and
`drop`. -/
def parentsFirstB (tasks : List Task) : Bool :=
  (List.range tasks.length).all fun i =>
    match tasks.drop i with
    | [] => true
    | t :: _ =>
      match parentRef t with
      | none => true
      | some p => !(hasId tasks p) || ((tasks.take i).map Task.id).contains p

/-! ### Characterisations of the fold-built maps -/

theorem childrenFold_eq (l : List Task) (m : String → List String) (x : String) :
    (l.foldl cmStep m) x
      = m x ++ (l.filter (fun t => parentRef t = some x)).map Task.id := by
  induction l generalizing m with
  | nil => simp
  | cons t l ih =>
    simp only [List.foldl_cons, List.filter_cons]
    cases h : parentRef t with
    | none => simp [cmStep, h, ih]
    | some p =>
      by_cases hp : p = x
      · subst hp
        simp [cmStep, h, ih]
      · have hxp : ¬x = p := fun hh => hp hh.symm
        simp [cmStep, h, hp, hxp, ih]

theorem childrenMapFn_eq (tasks : List Task) (x : String) :
    childrenMapFn tasks x
      = (tasks.filter (fun t => parentRef t = some x)).map Task.id := by
  have := childrenFold_eq tasks (fun _ => []) x
  simpa [childrenMapFn] using this

/-- If no task record of a list has id `x`, the parent-map fold leaves the
value at `x` untouched. -/
theorem parentFold_not_mem (l : List Task) (m : String → Option String) (x : String)
    (h : ∀ t ∈ l, t.id ≠ x) :
    (l.foldl pmStep m) x = m x := by
  induction l generalizing m with
  | nil => rfl
  | cons t l ih =>
    simp only [List.foldl_cons]
    have hx : ¬x = t.id := fun hh => h t (List.mem_cons_self t l) hh.symm
    have hrest : ∀ t' ∈ l, t'.id ≠ x := fun t' ht' => h t' (List.mem_cons_of_mem t ht')
    cases hpr : parentRef t with
    | none =>
      rw [ih _ hrest]
      simp [pmStep, hpr]
    | some p =>
      rw [ih _ hrest]
      simp [pmStep, hpr, hx]

/-- A nonempty parent-map entry comes from some task record with a truthy
parent reference. -/
theorem parentFold_some (l : List Task) (m : String → Option String) (x p : String)
    (h : (l.foldl pmStep m) x = some p) :
    (∃ t ∈ l, t.id = x ∧ parentRef t = some p) ∨ m x = some p := by
  induction l generalizing m with
  | nil => exact Or.inr h
  | cons t l ih =>
    simp only [List.foldl_cons] at h
    rcases ih _ h with ht | hm
    · obtain ⟨t', ht', he, hp⟩ := ht
      exact Or.inl ⟨t', List.mem_cons_of_mem t ht', he, hp⟩
    · cases hpr : parentRef t with
      | none =>
        simp only [pmStep, hpr] at hm
        exact Or.inr hm
      | some q =>
        simp only [pmStep, hpr] at hm
        by_cases hx : x = t.id
        · rw [hx] at hm
          simp at hm
          exact Or.inl ⟨t, List.mem_cons_self t l, hx.symm, by rw [hpr, hm]⟩
        · simp only [if_neg hx] at hm
          exact Or.inr hm

/-- Once a parent-map entry is present it stays present. -/
theorem parentFold_isSome (l : List Task) (m : String → Option String) (x : String)
    (h : (m x).isSome = true) :
    ((l.foldl pmStep m) x).isSome = true := by
  induction l generalizing m with
  | nil => exact h
  | cons t l ih =>
    simp only [List.foldl_cons]
    apply ih
    cases hpr : parentRef t with
    | none => simpa [pmStep, hpr] using h
    | some p =>
      by_cases hx : x = t.id <;> simp [pmStep, hpr, hx, h]

theorem parentMapFn_not_mem (tasks : List Task) (x : String)
    (h : ∀ t ∈ tasks, t.id ≠ x) : parentMapFn tasks x = none := by
  have := parentFold_not_mem tasks (fun _ => none) x h
  simpa [parentMapFn] using this

theorem parentMapFn_some (tasks : List Task) (x p : String)
    (h : parentMapFn tasks x = some p) :
    ∃ t ∈ tasks, t.id = x ∧ parentRef t = some p := by
  have := parentFold_some tasks (fun _ => none) x p (by simpa [parentMapFn] using h)
  rcases this with h' | h'
  · exact h'
  · cases h'

/-- Splitting a list with unique ids around one of its members. -/
theorem nodup_split (l₁ l₂ : List Task) (t : Task)
    (hN : ((l₁ ++ t :: l₂).map Task.id).Nodup) :
    (∀ t' ∈ l₁, t'.id ≠ t.id) ∧ (∀ t' ∈ l₂, t'.id ≠ t.id) := by
  simp only [List.map_append, List.map_cons, List.nodup_append, List.nodup_cons] at hN
  constructor
  · intro t' ht' he
    exact hN.2.2 (List.mem_map_of_mem Task.id ht') (he ▸ List.mem_cons_self _ _)
  · intro t' ht' he
    exact hN.2.1.1 (he ▸ List.mem_map_of_mem Task.id ht')

/-- With unique ids, each task's parent-map entry is exactly its own truthy
parent reference. -/
theorem parentMapFn_of_nodup (tasks : List Task) (hN : (tasks.map Task.id).Nodup)
    {t : Task} (ht : t ∈ tasks) : parentMapFn tasks t.id = parentRef t := by
  obtain ⟨l₁, l₂, rfl⟩ := List.append_of_mem ht
  obtain ⟨h1, h2⟩ := nodup_split l₁ l₂ t hN
  show ((l₁ ++ t :: l₂).foldl pmStep (fun _ => none)) t.id = parentRef t
  rw [List.foldl_append, List.foldl_cons, parentFold_not_mem _ _ _ h2]
  cases hpr : parentRef t with
  | none =>
    simp only [pmStep, hpr]
    exact parentFold_not_mem _ _ _ h1
  | some p => simp [pmStep, hpr]

theorem parentMapFn_isSome (tasks : List Task) {t : Task} (ht : t ∈ tasks)
    {p : String} (hp : parentRef t = some p) :
    (parentMapFn tasks t.id).isSome = true := by
  obtain ⟨l₁, l₂, rfl⟩ := List.append_of_mem ht
  show (((l₁ ++ t :: l₂).foldl pmStep (fun _ => none)) t.id).isSome = true
  rw [List.foldl_append, List.foldl_cons]
  apply parentFold_isSome
  simp [pmStep, hp]

theorem taskFold_not_mem (l : List Task) (m : String → Option Task) (x : String)
    (h : ∀ t ∈ l, t.id ≠ x) :
    (l.foldl tmStep m) x = m x := by
  induction l generalizing m with
  | nil => rfl
  | cons t l ih =>
    simp only [List.foldl_cons]
    have hx : ¬x = t.id := fun hh => h t (List.mem_cons_self t l) hh.symm
    rw [ih _ (fun t' ht' => h t' (List.mem_cons_of_mem t ht'))]
    simp [tmStep, hx]

theorem taskMapFn_of_nodup (tasks : List Task) (hN : (tasks.map Task.id).Nodup)
    {t : Task} (ht : t ∈ tasks) : taskMapFn tasks t.id = some t := by
  obtain ⟨l₁, l₂, rfl⟩ := List.append_of_mem ht
  obtain ⟨-, h2⟩ := nodup_split l₁ l₂ t hN
  show ((l₁ ++ t :: l₂).foldl tmStep (fun _ => none)) t.id = some t
  rw [List.foldl_append, List.foldl_cons, taskFold_not_mem _ _ _ h2]
  simp [tmStep]

theorem hasId_iff (tasks : List Task) (p : String) :
    hasId tasks p = true ↔ ∃ t ∈ tasks, t.id = p := by
  simp [hasId, List.any_eq_true]

/-! ### Characterisations of the Builder's second pass -/

theorem pass2Fold_rootIds (tasks l : List Task) (s : BuildState) :
    (l.foldl (pass2Step tasks) s).rootIds
      = s.rootIds ++ (l.filter (fun t => !isChildRec tasks t)).map Task.id := by
  induction l generalizing s with
  | nil => simp
  | cons t l ih =>
    simp only [List.foldl_cons, List.filter_cons, ih]
    cases hpr : parentRef t with
    | none => simp [pass2Step, hpr, isChildRec]
    | some p =>
      by_cases hp : hasId tasks p
      · simp [pass2Step, hpr, hp, isChildRec]
      · simp [pass2Step, hpr, hp, isChildRec]

theorem pass2_rootIds (tasks : List Task) :
    (pass2 tasks).rootIds
      = (tasks.filter (fun t => !isChildRec tasks t)).map Task.id := by
  have := pass2Fold_rootIds tasks tasks ⟨fun _ => [], [], fun _ => 0⟩
  simpa [pass2] using this

theorem pass2Fold_childAcc (tasks l : List Task) (s : BuildState) (x : String) :
    (l.foldl (pass2Step tasks) s).childAcc x
      = s.childAcc x
        ++ (l.filter (fun t => parentRef t = some x ∧ hasId tasks x)).map Task.id := by
  induction l generalizing s with
  | nil => simp
  | cons t l ih =>
    simp only [List.foldl_cons, List.filter_cons, ih]
    cases hpr : parentRef t with
    | none => simp [pass2Step, hpr]
    | some p =>
      by_cases hp : hasId tasks p
      · by_cases hx : p = x
        · subst hx
          simp [pass2Step, hpr, hp]
        · have hx' : ¬x = p := fun hh => hx hh.symm
          simp [pass2Step, hpr, hp, hx', hx]
      · have hcond : ¬(p = x ∧ hasId tasks x = true) := by
          rintro ⟨rfl, hh⟩
          exact hp hh
        simp [pass2Step, hpr, hp, hcond]

theorem pass2_childAcc (tasks : List Task) (x : String) :
    (pass2 tasks).childAcc x
      = (tasks.filter (fun t => parentRef t = some x ∧ hasId tasks x)).map Task.id := by
  have := pass2Fold_childAcc tasks tasks ⟨fun _ => [], [], fun _ => 0⟩ x
  simpa [pass2] using this

theorem pass2Fold_depth_not_mem (tasks l : List Task) (s : BuildState) (x : String)
    (h : ∀ t ∈ l, t.id ≠ x) :
    (l.foldl (pass2Step tasks) s).depthM x = s.depthM x := by
  induction l generalizing s with
  | nil => rfl
  | cons t l ih =>
    simp only [List.foldl_cons]
    have hx : ¬x = t.id := fun hh => h t (List.mem_cons_self t l) hh.symm
    rw [ih _ (fun t' ht' => h t' (List.mem_cons_of_mem t ht'))]
    cases hpr : parentRef t with
    | none => simp [pass2Step, hpr]
    | some p =>
      by_cases hp : hasId tasks p <;> simp [pass2Step, hpr, hp, hx]

/-- Pass-2 depth of a task whose record is attached to a resolvable parent:
one more than the value the parent's entry had when the record was reached. -/
theorem pass2_depth_child (tasks : List Task) (hN : (tasks.map Task.id).Nodup)
    {l₁ l₂ : List Task} {t : Task} (hsplit : tasks = l₁ ++ t :: l₂)
    {p : String} (hpr : parentRef t = some p) (hp : hasId tasks p = true) :
    (pass2 tasks).depthM t.id
      = (l₁.foldl (pass2Step tasks) ⟨fun _ => [], [], fun _ => 0⟩).depthM p + 1 := by
  subst hsplit
  obtain ⟨-, h2⟩ := nodup_split l₁ l₂ t hN
  rw [pass2, List.foldl_append, List.foldl_cons, pass2Fold_depth_not_mem _ _ _ _ h2]
  simp [pass2Step, hpr, hp]

/-- Pass-2 depth of a task whose record is not attached (no truthy parent, or
an unresolvable one): stays at the pass-1 value zero. -/
theorem pass2_depth_root (tasks : List Task) (hN : (tasks.map Task.id).Nodup)
    {t : Task} (ht : t ∈ tasks) (hroot : isChildRec tasks t = false) :
    (pass2 tasks).depthM t.id = 0 := by
  obtain ⟨l₁, l₂, rfl⟩ := List.append_of_mem ht
  obtain ⟨h1, h2⟩ := nodup_split l₁ l₂ t hN
  rw [pass2, List.foldl_append, List.foldl_cons, pass2Fold_depth_not_mem _ _ _ _ h2]
  have hkeep : (pass2Step (l₁ ++ t :: l₂) (l₁.foldl (pass2Step (l₁ ++ t :: l₂)) ⟨fun _ => [], [], fun _ => 0⟩) t).depthM
      = (l₁.foldl (pass2Step (l₁ ++ t :: l₂)) ⟨fun _ => [], [], fun _ => 0⟩).depthM := by
    cases hpr : parentRef t with
    | none => simp [pass2Step, hpr]
    | some p =>
      simp only [isChildRec, hpr] at hroot
      simp [pass2Step, hpr, hroot]
  rw [hkeep, pass2Fold_depth_not_mem _ _ _ _ h1]

/-- The depth a node id carries in the materialised forest is the pass-2
depth. -/
theorem buildNode_depth (tasks : List Task) (fuel : Nat) (id : String) :
    (buildNode tasks fuel id).depth = (pass2 tasks).depthM id := by
  cases fuel <;> rfl

/-! ### Acyclicity certificates and the ancestor walk -/

theorem rankCert_of_B (tasks : List Task) (rank : String → Nat)
    (h : rankCertB tasks rank = true) : rankCert tasks rank := by
  rw [rankCertB, List.all_eq_true] at h
  constructor
  · intro id p hpm
    obtain ⟨t, ht, rfl, hpr⟩ := parentMapFn_some tasks id p hpm
    have := h t ht
    rw [hpr] at this
    simp at this
    exact this.1
  · intro t ht
    have := h t ht
    simp at this
    exact this.2

/-- The ancestor walk is independent of the fuel once the fuel exceeds the
rank of the starting id. -/
theorem ancFuel_stable (pm : String → Option String) (rank : String → Nat)
    (hdec : ∀ id p, pm id = some p → rank p < rank id) :
    ∀ k f g id, rank id ≤ k → rank id < f → rank id < g →
      ancFuel pm f id = ancFuel pm g id := by
  intro k
  induction k with
  | zero =>
    intro f g id hk hf hg
    obtain ⟨f, rfl⟩ := Nat.exists_eq_succ_of_ne_zero (Nat.pos_iff_ne_zero.mp (Nat.lt_of_le_of_lt (Nat.zero_le _) hf))
    obtain ⟨g, rfl⟩ := Nat.exists_eq_succ_of_ne_zero (Nat.pos_iff_ne_zero.mp (Nat.lt_of_le_of_lt (Nat.zero_le _) hg))
    cases hpm : pm id with
    | none => simp [ancFuel, hpm]
    | some p =>
      have := hdec id p hpm
      omega
  | succ k ih =>
    intro f g id hk hf hg
    obtain ⟨f, rfl⟩ := Nat.exists_eq_succ_of_ne_zero (Nat.pos_iff_ne_zero.mp (Nat.lt_of_le_of_lt (Nat.zero_le _) hf))
    obtain ⟨g, rfl⟩ := Nat.exists_eq_succ_of_ne_zero (Nat.pos_iff_ne_zero.mp (Nat.lt_of_le_of_lt (Nat.zero_le _) hg))
    cases hpm : pm id with
    | none => simp [ancFuel, hpm]
    | some p =>
      simp only [ancFuel, hpm]
      have hp := hdec id p hpm
      rw [ih f g p (by omega) (by omega) (by omega)]

/-- Every element of the ancestor walk has rank strictly below the start. -/
theorem ancFuel_rank_lt (pm : String → Option String) (rank : String → Nat)
    (hdec : ∀ id p, pm id = some p → rank p < rank id) :
    ∀ f id a, a ∈ ancFuel pm f id → rank a < rank id := by
  intro f
  induction f with
  | zero => intro id a ha; cases ha
  | succ f ih =>
    intro id a ha
    cases hpm : pm id with
    | none => rw [ancFuel, hpm] at ha; cases ha
    | some p =>
      rw [ancFuel, hpm] at ha
      rcases List.mem_cons.mp ha with rfl | ha'
      · exact hdec id a hpm
      · exact Nat.lt_trans (ih p a ha') (hdec id p hpm)

/-- The recurrence satisfied by the canonical-fuel ancestor walk under an
acyclicity certificate: this is the defining equation of the source's
`while` loop, so reaching it means the loop terminates with this value. -/
theorem ancFuel_canonical_rec (pm : String → Option String) (rank : String → Nat)
    (hdec : ∀ id p, pm id = some p → rank p < rank id) (n : Nat)
    (hbound : ∀ id p, pm id = some p → rank id ≤ n) (id : String) :
    ancFuel pm (n + 1) id
      = (match pm id with
         | none => []
         | some p => p :: ancFuel pm (n + 1) p) := by
  cases hpm : pm id with
  | none => simp [ancFuel, hpm]
  | some p =>
    have hid : rank id ≤ n := hbound id p hpm
    have hp : rank p < rank id := hdec id p hpm
    have h1 : ancFuel pm (n + 1) id
        = (match pm id with | none => [] | some q => q :: ancFuel pm n q) := rfl
    simp only [hpm] at h1 ⊢
    rw [h1]
    congr 1
    exact ancFuel_stable pm rank hdec (rank p) n (n + 1) p (le_refl _) (by omega) (by omega)

theorem bparentFn_sub (tasks : List Task) {id p : String}
    (h : bparentFn tasks id = some p) :
    parentMapFn tasks id = some p ∧ hasId tasks p = true := by
  unfold bparentFn at h
  cases hpm : parentMapFn tasks id with
  | none => simp [hpm] at h
  | some q =>
    simp only [hpm] at h
    by_cases hq : hasId tasks q
    · rw [if_pos hq] at h
      cases h
      exact ⟨rfl, hq⟩
    · rw [if_neg hq] at h
      cases h

theorem bparentFn_some_intro (tasks : List Task) {id p : String}
    (hpm : parentMapFn tasks id = some p) (hp : hasId tasks p = true) :
    bparentFn tasks id = some p := by
  unfold bparentFn
  simp [hpm, hp]

theorem bparentFn_none_unres (tasks : List Task) {id p : String}
    (hpm : parentMapFn tasks id = some p) (hp : hasId tasks p = false) :
    bparentFn tasks id = none := by
  unfold bparentFn
  simp [hpm, hp]

theorem bparentFn_none_nopm (tasks : List Task) {id : String}
    (hpm : parentMapFn tasks id = none) : bparentFn tasks id = none := by
  unfold bparentFn
  simp [hpm]

theorem rankCert_dec_b (tasks : List Task) (rank : String → Nat)
    (hc : rankCert tasks rank) :
    ∀ id p, bparentFn tasks id = some p → rank p < rank id := by
  intro id p h
  exact hc.1 id p (bparentFn_sub tasks h).1

theorem rankCert_bound_pm (tasks : List Task) (rank : String → Nat)
    (hc : rankCert tasks rank) :
    ∀ id p, parentMapFn tasks id = some p → rank id ≤ tasks.length := by
  intro id p h
  obtain ⟨t, ht, rfl, -⟩ := parentMapFn_some tasks id p h
  exact hc.2 t ht

theorem rankCert_bound_b (tasks : List Task) (rank : String → Nat)
    (hc : rankCert tasks rank) :
    ∀ id p, bparentFn tasks id = some p → rank id ≤ tasks.length := by
  intro id p h
  exact rankCert_bound_pm tasks rank hc id p (bparentFn_sub tasks h).1

/-- The Index's ancestor walk satisfies its defining recurrence for acyclic
collections. -/
theorem getAncestors_recur (tasks : List Task) (rank : String → Nat)
    (hc : rankCert tasks rank) (id : String) :
    getAncestors tasks id
      = (match parentMapFn tasks id with
         | none => []
         | some p => p :: getAncestors tasks p) :=
  ancFuel_canonical_rec (parentMapFn tasks) rank hc.1 tasks.length
    (rankCert_bound_pm tasks rank hc) id

/-- The Builder-side ancestor chain satisfies the same recurrence. -/
theorem ancTree_recur (tasks : List Task) (rank : String → Nat)
    (hc : rankCert tasks rank) (id : String) :
    ancTree tasks id
      = (match bparentFn tasks id with
         | none => []
         | some p => p :: ancTree tasks p) :=
  ancFuel_canonical_rec (bparentFn tasks) rank (rankCert_dec_b tasks rank hc)
    tasks.length (rankCert_bound_b tasks rank hc) id

/-! ### Membership characterisations under unique ids -/

/-- With unique ids, membership in a pass-2 children list is exactly the
Builder's resolvable-parent relation. -/
theorem childAcc_mem_iff (tasks : List Task) (hN : (tasks.map Task.id).Nodup)
    (c x : String) :
    c ∈ (pass2 tasks).childAcc x ↔ bparentFn tasks c = some x := by
  rw [pass2_childAcc]
  constructor
  · intro hmem
    obtain ⟨t, htf, rfl⟩ := List.mem_map.mp hmem
    rw [List.mem_filter] at htf
    obtain ⟨ht, hcond⟩ := htf
    simp only [decide_eq_true_eq] at hcond
    obtain ⟨hpr, hx⟩ := hcond
    exact bparentFn_some_intro tasks (by rw [parentMapFn_of_nodup tasks hN ht, hpr]) hx
  · intro hb
    obtain ⟨hpm, hx⟩ := bparentFn_sub tasks hb
    obtain ⟨t, ht, rfl, hpr⟩ := parentMapFn_some tasks c x hpm
    refine List.mem_map.mpr ⟨t, List.mem_filter.mpr ⟨ht, ?_⟩, rfl⟩
    simp [hpr, hx]

/-- With unique ids, membership in the pass-2 root list characterises ids of
tasks with no resolvable parent. -/
theorem rootIds_mem_iff (tasks : List Task) (hN : (tasks.map Task.id).Nodup)
    (r : String) :
    r ∈ (pass2 tasks).rootIds
      ↔ (hasId tasks r = true ∧ bparentFn tasks r = none) := by
  rw [pass2_rootIds]
  constructor
  · intro hmem
    obtain ⟨t, htf, rfl⟩ := List.mem_map.mp hmem
    rw [List.mem_filter] at htf
    obtain ⟨ht, hcond⟩ := htf
    have hhas : hasId tasks t.id = true := (hasId_iff tasks t.id).mpr ⟨t, ht, rfl⟩
    refine ⟨hhas, ?_⟩
    simp only [Bool.not_eq_true'] at hcond
    unfold isChildRec at hcond
    cases hpr : parentRef t with
    | none =>
      exact bparentFn_none_nopm tasks (by rw [parentMapFn_of_nodup tasks hN ht, hpr])
    | some p =>
      simp only [hpr] at hcond
      exact bparentFn_none_unres tasks
        (by rw [parentMapFn_of_nodup tasks hN ht, hpr]) hcond
  · rintro ⟨hhas, hb⟩
    obtain ⟨t, ht, rfl⟩ := (hasId_iff tasks r).mp hhas
    refine List.mem_map.mpr ⟨t, List.mem_filter.mpr ⟨ht, ?_⟩, rfl⟩
    have hpm := parentMapFn_of_nodup tasks hN ht
    simp only [Bool.not_eq_true']
    unfold isChildRec
    cases hpr : parentRef t with
    | none => rfl
    | some p =>
      simp only [hpr]
      rw [hpr] at hpm
      by_cases hp : hasId tasks p
      · rw [bparentFn_some_intro tasks hpm hp] at hb
        cases hb
      · simpa using hp

theorem rootIds_nodup (tasks : List Task) (hN : (tasks.map Task.id).Nodup) :
    (pass2 tasks).rootIds.Nodup := by
  rw [pass2_rootIds]
  exact List.Nodup.sublist ((List.filter_sublist tasks).map Task.id) hN

theorem childAcc_nodup (tasks : List Task) (hN : (tasks.map Task.id).Nodup)
    (x : String) : ((pass2 tasks).childAcc x).Nodup := by
  rw [pass2_childAcc]
  exact List.Nodup.sublist ((List.filter_sublist tasks).map Task.id) hN

theorem taskFold_id (l : List Task) (m : String → Option Task) (x : String)
    (hm : ∀ t, m x = some t → t.id = x) :
    ∀ t, (l.foldl tmStep m) x = some t → t.id = x := by
  induction l generalizing m with
  | nil => exact hm
  | cons t l ih =>
    simp only [List.foldl_cons]
    apply ih
    intro t' ht'
    unfold tmStep at ht'
    by_cases hx : x = t.id
    · rw [if_pos hx] at ht'
      cases ht'
      exact hx.symm
    · rw [if_neg hx] at ht'
      exact hm t' ht'

theorem taskOf_id (tasks : List Task) (id : String) : (taskOf tasks id).id = id := by
  unfold taskOf
  cases htm : taskMapFn tasks id with
  | none => rfl
  | some t =>
    simp only [Option.getD_some]
    exact taskFold_id tasks (fun _ => none) id (by intro t' ht'; cases ht') t htm

theorem buildNode_id (tasks : List Task) (fuel : Nat) (id : String) :
    (buildNode tasks fuel id).id = id := by
  cases fuel <;> simp [buildNode, TaskNode.id, TaskNode.task, taskOf_id]

theorem sortIds_mem (tasks : List Task) (ids : List String) (x : String) :
    x ∈ sortIds tasks ids ↔ x ∈ ids :=
  (List.perm_insertionSort _ ids).mem_iff

theorem sortIds_perm (tasks : List Task) (ids : List String) :
    (sortIds tasks ids).Perm ids :=
  List.perm_insertionSort _ ids

/-! ### Claim theorems: Relationship Validator and Hierarchy Index basics -/

/-- Claim C2: for every collection and pair of ids, `canBeParent a a` is
false; `canBeParent a b` is false whenever `b` is among
`getDescendantIds a`; and `canBeParent a b` is true whenever `b` is neither
`a` nor among `a`'s descendants. -/
theorem claim_C2 (tasks : List Task) (a b : String) :
    canBeParent a a tasks = false
    ∧ (b ∈ getDescendantIds a tasks → canBeParent a b tasks = false)
    ∧ (a ≠ b → b ∉ getDescendantIds a tasks → canBeParent a b tasks = true) := by
  refine ⟨by simp [canBeParent], ?_, ?_⟩
  · intro hb
    by_cases hab : a = b
    · simp [canBeParent, hab]
    · simp [canBeParent, hab, hb]
  · intro hne hnb
    simp [canBeParent, hne, hnb]

/-- Witness for C2 on a concrete two-task collection. -/
theorem claim_C2_witness :
    canBeParent "P" "P" [⟨"P", none, 0, ""⟩, ⟨"C1", some "P", 2, ""⟩] = false
    ∧ canBeParent "P" "C1" [⟨"P", none, 0, ""⟩, ⟨"C1", some "P", 2, ""⟩] = false
    ∧ canBeParent "C1" "P" [⟨"P", none, 0, ""⟩, ⟨"C1", some "P", 2, ""⟩] = true :=
  ⟨(claim_C2 [⟨"P", none, 0, ""⟩, ⟨"C1", some "P", 2, ""⟩] "P" "P").1,
   (claim_C2 [⟨"P", none, 0, ""⟩, ⟨"C1", some "P", 2, ""⟩] "P" "C1").2.1 (by decide),
   (claim_C2 [⟨"P", none, 0, ""⟩, ⟨"C1", some "P", 2, ""⟩] "C1" "P").2.2
     (by decide) (by decide)⟩

/-- Claim C8: under an acyclicity certificate the ancestor walk reaches its
fixpoint at the canonical fuel: it satisfies the defining equation of the
source's `while` loop (so the loop terminates, also on a chain ending in a
dangling reference, whose final element is the dangling id itself), and the
chain is ordered nearest-ancestor first by that equation. -/
theorem claim_C8 (tasks : List Task) (rank : String → Nat)
    (hc : rankCert tasks rank) (id : String) :
    getAncestors tasks id
      = (match parentMapFn tasks id with
         | none => []
         | some p => p :: getAncestors tasks p) :=
  getAncestors_recur tasks rank hc id

/-- Witness for C8 on a collection with a dangling chain. -/
theorem claim_C8_witness :
    rankCertB [⟨"A", none, 0, ""⟩, ⟨"B", some "A", 0, ""⟩, ⟨"X", some "ghost", 0, ""⟩]
        (fun s => if s = "B" then 1 else if s = "X" then 1 else 0) = true
    ∧ getAncestors [⟨"A", none, 0, ""⟩, ⟨"B", some "A", 0, ""⟩, ⟨"X", some "ghost", 0, ""⟩] "X"
      = (match parentMapFn [⟨"A", none, 0, ""⟩, ⟨"B", some "A", 0, ""⟩, ⟨"X", some "ghost", 0, ""⟩] "X" with
         | none => []
         | some p => p :: getAncestors [⟨"A", none, 0, ""⟩, ⟨"B", some "A", 0, ""⟩, ⟨"X", some "ghost", 0, ""⟩] p) :=
  ⟨by decide,
   claim_C8 [⟨"A", none, 0, ""⟩, ⟨"B", some "A", 0, ""⟩, ⟨"X", some "ghost", 0, ""⟩]
     (fun s => if s = "B" then 1 else if s = "X" then 1 else 0)
     (rankCert_of_B _ _ (by decide)) "X"⟩

/-- Counterexample to claim C4 as stated: with the single task `X` whose
parent reference `ghost` resolves to nothing, `isRoot "X"` is `false`, not
`true` — the Index's `parentMap` records the dangling reference. -/
theorem claim_C4_counterexample :
    hasId [(⟨"X", some "ghost", 0, ""⟩ : Task)] "ghost" = false
    ∧ isRoot [(⟨"X", some "ghost", 0, ""⟩ : Task)] "X" = false := by decide

/-- Claim C4 (amended): a task with a dangling (truthy, unresolvable) parent
reference is placed in the Builder's root list, but the Index's `isRoot`
still answers `false` for it, because `parentMap` has an entry for every
truthy reference whether or not it resolves. -/
theorem claim_C4 (tasks : List Task) {t : Task} (ht : t ∈ tasks) {p : String}
    (hpt : t.parent_task_id = some p) (hp0 : p ≠ "")
    (hdangling : hasId tasks p = false) :
    (t.id ∈ (pass2 tasks).rootIds ∧ ∃ node ∈ buildTaskTree tasks, node.id = t.id)
    ∧ isRoot tasks t.id = false := by
  have hpr : parentRef t = some p := by
    unfold parentRef
    rw [hpt]
    simp [hp0]
  have hroot : t.id ∈ (pass2 tasks).rootIds := by
    rw [pass2_rootIds]
    refine List.mem_map.mpr ⟨t, List.mem_filter.mpr ⟨ht, ?_⟩, rfl⟩
    simp only [Bool.not_eq_true']
    unfold isChildRec
    rw [hpr]
    exact hdangling
  refine ⟨⟨hroot, ?_⟩, ?_⟩
  · refine ⟨buildNode tasks (tasks.length + 1) t.id, ?_, buildNode_id tasks _ t.id⟩
    exact List.mem_map_of_mem _ ((sortIds_mem tasks _ t.id).mpr hroot)
  · have hsome := parentMapFn_isSome tasks ht hpr
    unfold isRoot
    obtain ⟨q, hq⟩ := Option.isSome_iff_exists.mp hsome
    rw [hq]
    rfl

/-- Witness for C4 at the dangling-reference collection. -/
theorem claim_C4_witness :
    ("X" ∈ (pass2 [(⟨"X", some "ghost", 0, ""⟩ : Task)]).rootIds
      ∧ ∃ node ∈ buildTaskTree [(⟨"X", some "ghost", 0, ""⟩ : Task)], node.id = "X")
    ∧ isRoot [(⟨"X", some "ghost", 0, ""⟩ : Task)] "X" = false :=
  claim_C4 [(⟨"X", some "ghost", 0, ""⟩ : Task)]
    (List.mem_cons_self _ _) rfl (by decide) (by decide)

/-- Counterexample to claim C7 as stated: `"ghost"` is not the id of any
task in the collection, yet `getChildren` / `hasChildren` /
`getDescendantCount` do not answer empty/false/zero for it, because the
`childrenMap` is keyed by referenced — possibly dangling — parent ids. -/
theorem claim_C7_counterexample :
    hasId [(⟨"X", some "ghost", 0, ""⟩ : Task)] "ghost" = false
    ∧ getChildren [(⟨"X", some "ghost", 0, ""⟩ : Task)] "ghost" = ["X"]
    ∧ hasChildren [(⟨"X", some "ghost", 0, ""⟩ : Task)] "ghost" = true
    ∧ getDescendantCount [(⟨"X", some "ghost", 0, ""⟩ : Task)] "ghost" = 1 := by
  decide

/-- Claim C7 (amended): every Hierarchy Index query is total, and an id that
neither names a task nor is referenced as any task's (truthy) parent gets
the absent/empty/zero answer from every query. -/
theorem claim_C7 (tasks : List Task) (id : String)
    (hid : hasId tasks id = false)
    (href : ∀ t ∈ tasks, parentRef t ≠ some id) :
    getParent tasks id = none
    ∧ getChildren tasks id = []
    ∧ hasChildren tasks id = false
    ∧ getAncestors tasks id = []
    ∧ getDepth tasks id = 0
    ∧ getDescendantCount tasks id = 0 := by
  have hnotid : ∀ t ∈ tasks, t.id ≠ id := by
    intro t ht he
    have := (hasId_iff tasks id).mpr ⟨t, ht, he⟩
    rw [this] at hid
    cases hid
  have hpm : parentMapFn tasks id = none := parentMapFn_not_mem tasks id hnotid
  have hcm : childrenMapFn tasks id = [] := by
    rw [childrenMapFn_eq]
    rw [List.filter_eq_nil_iff.mpr]
    · rfl
    · intro t ht
      simpa using href t ht
  have hanc : getAncestors tasks id = [] := by
    unfold getAncestors
    show ancFuel (parentMapFn tasks) (tasks.length + 1) id = []
    simp [ancFuel, hpm]
  refine ⟨hpm, hcm, ?_, hanc, ?_, ?_⟩
  · simp [hasChildren, hcm]
  · simp [getDepth, hanc]
  · unfold getDescendantCount
    show descCountFuel tasks (tasks.length + 1) id = 0
    simp [descCountFuel, hcm]

/-- Witness for C7 at a concrete unknown id. -/
theorem claim_C7_witness :
    getParent [(⟨"A", none, 0, ""⟩ : Task)] "Z" = none
    ∧ getChildren [(⟨"A", none, 0, ""⟩ : Task)] "Z" = []
    ∧ hasChildren [(⟨"A", none, 0, ""⟩ : Task)] "Z" = false
    ∧ getAncestors [(⟨"A", none, 0, ""⟩ : Task)] "Z" = []
    ∧ getDepth [(⟨"A", none, 0, ""⟩ : Task)] "Z" = 0
    ∧ getDescendantCount [(⟨"A", none, 0, ""⟩ : Task)] "Z" = 0 :=
  claim_C7 [(⟨"A", none, 0, ""⟩ : Task)] "Z" (by decide) (by decide)

/-! ### Claim C1: the Builder's depth assignment -/

theorem nodup_cross (l₁ l₂ : List Task) (hN : ((l₁ ++ l₂).map Task.id).Nodup)
    {a : Task} (ha : a ∈ l₁) : ∀ b ∈ l₂, b.id ≠ a.id := by
  intro b hb he
  rw [List.map_append, List.nodup_append] at hN
  exact hN.2.2 (List.mem_map_of_mem Task.id ha) (he ▸ List.mem_map_of_mem Task.id hb)

theorem pass2_depth_prefix (tasks l₁ l₂ : List Task) (hsplit : tasks = l₁ ++ l₂)
    (x : String) (hx : ∀ t ∈ l₂, t.id ≠ x) :
    (pass2 tasks).depthM x
      = (l₁.foldl (pass2Step tasks) ⟨fun _ => [], [], fun _ => 0⟩).depthM x := by
  subst hsplit
  rw [pass2, List.foldl_append, pass2Fold_depth_not_mem _ _ _ _ hx]

/-- Counterexample to claim C1 as stated: in the chain `C → B → A` listed
child-first (unique ids, acyclic), the Builder assigns depth 1 to `C`
while `C` has two ancestors — the depth read for `B` had not yet been
resolved when `C`'s record was scanned, so depth is not
order-independent. -/
theorem claim_C1_counterexample :
    ((exChain.map Task.id).Nodup ∧ rankCertB exChain rankChain = true)
    ∧ (pass2 exChain).depthM "C" = 1
    ∧ getDepth exChain "C" = 2 := by decide

/-- Claim C1 (amended): for a collection with unique ids, an acyclicity
certificate, only resolvable parent references, and every task listed after
its parent, the Builder's pass-2 depth of every task equals the number of
its ancestors (`getAncestors` length, which `getDepth` returns), and this is
the depth carried by the task's materialised node. -/
theorem claim_C1 (tasks : List Task) (rank : String → Nat)
    (hN : (tasks.map Task.id).Nodup) (hc : rankCert tasks rank)
    (hres : ∀ t ∈ tasks, ∀ p, parentRef t = some p → hasId tasks p = true)
    (hPF : ParentsFirst tasks) :
    ∀ t ∈ tasks,
      (pass2 tasks).depthM t.id = (getAncestors tasks t.id).length
      ∧ getDepth tasks t.id = (getAncestors tasks t.id).length
      ∧ ∀ fuel, (buildNode tasks fuel t.id).depth = (pass2 tasks).depthM t.id := by
  have main : ∀ k, ∀ t ∈ tasks, rank t.id < k →
      (pass2 tasks).depthM t.id = (getAncestors tasks t.id).length := by
    intro k
    induction k with
    | zero => intro t ht hk; cases hk
    | succ k ih =>
      intro t ht hk
      have hpm := parentMapFn_of_nodup tasks hN ht
      cases hpr : parentRef t with
      | none =>
        rw [hpr] at hpm
        have hdz : (pass2 tasks).depthM t.id = 0 := by
          apply pass2_depth_root tasks hN ht
          unfold isChildRec
          rw [hpr]
        have hanc : getAncestors tasks t.id = [] := by
          unfold getAncestors
          show ancFuel (parentMapFn tasks) (tasks.length + 1) t.id = []
          simp [ancFuel, hpm]
        rw [hdz, hanc]
        rfl
      | some p =>
        rw [hpr] at hpm
        have hhas : hasId tasks p = true := hres t ht p hpr
        obtain ⟨l₁, l₂, hsplit⟩ := List.append_of_mem ht
        obtain ⟨tp, htp, htpid⟩ := List.mem_map.mp (hPF l₁ t l₂ hsplit p hpr hhas)
        have htp' : tp ∈ tasks := hsplit ▸ List.mem_append_left _ htp
        have hd1 := pass2_depth_child tasks hN hsplit hpr hhas
        have hcross : ∀ b ∈ t :: l₂, b.id ≠ p := by
          have := nodup_cross l₁ (t :: l₂) (hsplit ▸ hN) htp
          intro b hb he
          exact this b hb (he.trans htpid.symm)
        have hprefix := pass2_depth_prefix tasks l₁ (t :: l₂) hsplit p hcross
        have hrankp : rank p < rank t.id := hc.1 t.id p hpm
        have hih := ih tp htp' (by rw [htpid]; omega)
        rw [htpid] at hih
        have hrec := getAncestors_recur tasks rank hc t.id
        rw [hpm] at hrec
        rw [hrec, hd1, ← hprefix, hih]
        simp
  intro t ht
  refine ⟨main (rank t.id + 1) t ht (Nat.lt_succ_self _), rfl, ?_⟩
  intro fuel
  exact buildNode_depth tasks fuel t.id

theorem parentsFirst_of_B (tasks : List Task) (h : parentsFirstB tasks = true) :
    ParentsFirst tasks := by
  intro l₁ t l₂ hsplit p hpr hhas
  subst hsplit
  rw [parentsFirstB, List.all_eq_true] at h
  have hi : l₁.length < (l₁ ++ t :: l₂).length := by
    rw [List.length_append, List.length_cons]
    omega
  have hh := h l₁.length (List.mem_range.mpr hi)
  rw [List.drop_left, List.take_left] at hh
  simp only [hpr] at hh
  rw [hhas] at hh
  simp only [Bool.not_true, Bool.false_or] at hh
  simpa using hh

/-- Witness for C1 at the parents-first chain. -/
theorem claim_C1_witness :
    (pass2 exChainSorted).depthM (Task.id ⟨"C", some "B", 0, ""⟩)
      = (getAncestors exChainSorted (Task.id ⟨"C", some "B", 0, ""⟩)).length
    ∧ getDepth exChainSorted (Task.id ⟨"C", some "B", 0, ""⟩)
      = (getAncestors exChainSorted (Task.id ⟨"C", some "B", 0, ""⟩)).length
    ∧ ∀ fuel, (buildNode exChainSorted fuel (Task.id ⟨"C", some "B", 0, ""⟩)).depth
      = (pass2 exChainSorted).depthM (Task.id ⟨"C", some "B", 0, ""⟩) :=
  claim_C1 exChainSorted rankChain (by decide) (rankCert_of_B _ _ (by decide))
    (by decide) (parentsFirst_of_B _ (by decide)) ⟨"C", some "B", 0, ""⟩
    (by decide)

/-! ### Claim C10: the two descendant closures -/

theorem flatMap_if_filter {α β : Type} (l : List α) (p : α → Prop) [DecidablePred p]
    (g : α → List β) :
    (l.flatMap fun a => if p a then g a else []) = (l.filter (fun a => p a)).flatMap g := by
  induction l with
  | nil => rfl
  | cons a l ih =>
    by_cases h : p a <;> simp [h, ih]

/-- Counterexample to claim C10 as stated: with the single task `K` whose
stored parent reference is the empty string (unique ids, acyclic), the
Index counts no descendants under `""` (the empty reference is falsy and
never enters `childrenMap`), while the Validator's strict-equality walk
lists `K` as a descendant of `""`. -/
theorem claim_C10_counterexample :
    ((List.map Task.id [(⟨"K", some "", 0, ""⟩ : Task)]).Nodup
      ∧ rankCertB [(⟨"K", some "", 0, ""⟩ : Task)] (fun _ => 0) = true)
    ∧ getDescendantCount [(⟨"K", some "", 0, ""⟩ : Task)] "" = 0
    ∧ (getDescendantIds "" [(⟨"K", some "", 0, ""⟩ : Task)]).length = 1 := by decide

theorem descCount_eq_descIds_len (tasks : List Task)
    (hne : ∀ t ∈ tasks, t.parent_task_id ≠ some "") :
    ∀ fuel id, descCountFuel tasks fuel id = (descIdsFuel tasks fuel id).length := by
  intro fuel
  induction fuel with
  | zero => intro id; rfl
  | succ fuel ih =>
    intro id
    have hcm : childrenMapFn tasks id
        = (tasks.filter (fun t => t.parent_task_id = some id)).map Task.id := by
      rw [childrenMapFn_eq]
      congr 1
      apply List.filter_congr
      intro t ht
      simp only [decide_eq_decide]
      cases hpt : t.parent_task_id with
      | none => simp [parentRef, hpt]
      | some q =>
        have hq : q ≠ "" := by
          intro hq
          exact hne t ht (by rw [hpt, hq])
        simp [parentRef, hpt, hq]
    have hstep : descCountFuel tasks (fuel + 1) id
        = (childrenMapFn tasks id).length
          + ((childrenMapFn tasks id).map (descCountFuel tasks fuel)).sum := rfl
    have hstep' : descIdsFuel tasks (fuel + 1) id
        = tasks.flatMap (fun t =>
            if t.parent_task_id = some id then t.id :: descIdsFuel tasks fuel t.id
            else []) := rfl
    rw [hstep, hstep', hcm, flatMap_if_filter]
    generalize (tasks.filter (fun t => t.parent_task_id = some id)) = l
    induction l with
    | nil => rfl
    | cons a l ihl =>
      simp only [List.map_cons, List.length_cons, List.sum_cons, List.flatMap_cons,
        List.length_append, List.length_cons, List.map_map]
      simp only [List.map_map] at ihl
      rw [ih a.id] at *
      omega

/-- Claim C10 (amended): for a collection with unique ids and an acyclicity
certificate in which no task stores an empty-string parent reference, the
Index's `getDescendantCount` equals the length of the Validator's
`getDescendantIds` for every id. -/
theorem claim_C10 (tasks : List Task) (rank : String → Nat)
    (_hN : (tasks.map Task.id).Nodup) (_hc : rankCert tasks rank)
    (hne : ∀ t ∈ tasks, t.parent_task_id ≠ some "") (id : String) :
    getDescendantCount tasks id = (getDescendantIds id tasks).length :=
  descCount_eq_descIds_len tasks hne (tasks.length + 1) id

/-- Witness for C10 on the two-child scenario collection. -/
theorem claim_C10_witness :
    getDescendantCount exScenario "P" = (getDescendantIds "P" exScenario).length :=
  claim_C10 exScenario (fun s => if s = "P" then 0 else 1) (by decide)
    (rankCert_of_B _ _ (by decide)) (by decide) "P"

/-! ### Claim C6: sibling ordering and the two-children scenario -/

theorem buildNode_order (tasks : List Task) (fuel : Nat) (id : String) :
    (buildNode tasks fuel id).task_order = orderOf tasks id := by
  cases fuel <;> rfl

theorem sortIds_sorted (tasks : List Task) (ids : List String) :
    (sortIds tasks ids).Pairwise (fun a b => orderOf tasks a ≤ orderOf tasks b) := by
  haveI : IsTotal String (fun a b => orderOf tasks a ≤ orderOf tasks b) :=
    ⟨fun a b => le_total _ _⟩
  haveI : IsTrans String (fun a b => orderOf tasks a ≤ orderOf tasks b) :=
    ⟨fun _ _ _ => le_trans⟩
  exact List.sorted_insertionSort _ ids

theorem sortedForest_of_pairwise (tasks : List Task) (fuel : Nat)
    (hA : ∀ id, sortedNode (buildNode tasks fuel id) = true) :
    ∀ ids : List String,
      ids.Pairwise (fun a b => orderOf tasks a ≤ orderOf tasks b) →
      sortedForest (ids.map (buildNode tasks fuel)) = true := by
  intro ids h
  induction ids with
  | nil => rfl
  | cons a ids ihl =>
    rw [List.pairwise_cons] at h
    cases ids with
    | nil =>
      show sortedNode (buildNode tasks fuel a) = true
      exact hA a
    | cons b ids' =>
      show (((buildNode tasks fuel a).task_order ≤ (buildNode tasks fuel b).task_order)
          && sortedNode (buildNode tasks fuel a)
          && sortedForest ((b :: ids').map (buildNode tasks fuel))) = true
      rw [Bool.and_eq_true, Bool.and_eq_true]
      refine ⟨⟨?_, hA a⟩, ihl h.2⟩
      rw [buildNode_order, buildNode_order]
      simpa using h.1 b (List.mem_cons_self b ids')

theorem sortedNode_build (tasks : List Task) :
    ∀ fuel id, sortedNode (buildNode tasks fuel id) = true := by
  intro fuel
  induction fuel with
  | zero => intro id; rfl
  | succ fuel ih =>
    intro id
    show sortedForest ((sortIds tasks ((pass2 tasks).childAcc id)).map (buildNode tasks fuel)) = true
    exact sortedForest_of_pairwise tasks fuel ih _ (sortIds_sorted tasks _)

theorem sortedForest_buildTaskTree (tasks : List Task) :
    sortedForest (buildTaskTree tasks) = true :=
  sortedForest_of_pairwise tasks _ (sortedNode_build tasks _) _ (sortIds_sorted tasks _)

/-- Claim C6: every sibling list of the built forest (the root list
included) is ascending in `task_order`; on the concrete spec scenario the
Builder yields the single root `P` with children `[C2, C1]`,
`getDepth "C1" = 1` and `getDescendantCount "P" = 2`. -/
theorem claim_C6 :
    (∀ tasks : List Task, sortedForest (buildTaskTree tasks) = true)
    ∧ (buildTaskTree exScenario).map
        (fun n => (n.id, n.children.map TaskNode.id, n.depth))
      = [("P", ["C2", "C1"], 0)]
    ∧ getDepth exScenario "C1" = 1
    ∧ getDescendantCount exScenario "P" = 2 := by
  refine ⟨sortedForest_buildTaskTree, ?_, by decide, by decide⟩
  decide

/-! ### Claim C9: the Projector only copies -/

mutual

theorem flattenOne_copy (exp : List String) :
    ∀ (n : TaskNode) (d : Nat) (x : TaskNode), x ∈ flattenOne exp n d →
      ∃ y ∈ allNodesOne n, x = setDepth y x.depth
  | .mk t cs e d0, d, x, hx => by
    rw [flattenOne] at hx
    rcases List.mem_cons.mp hx with rfl | hx'
    · exact ⟨.mk t cs e d0, List.mem_cons_self _ _, rfl⟩
    · by_cases hc : (exp.contains t.id || e) = true
      · rw [if_pos hc] at hx'
        obtain ⟨y, hy, hxy⟩ := flattenNodes_copy exp cs (d + 1) x hx'
        exact ⟨y, List.mem_cons_of_mem _ hy, hxy⟩
      · rw [if_neg hc] at hx'
        cases hx'

theorem flattenNodes_copy (exp : List String) :
    ∀ (ns : List TaskNode) (d : Nat) (x : TaskNode), x ∈ flattenNodes exp ns d →
      ∃ y ∈ allNodes ns, x = setDepth y x.depth
  | [], _, x, hx => by cases hx
  | n :: rest, d, x, hx => by
    rw [flattenNodes] at hx
    rcases List.mem_append.mp hx with hx' | hx'
    · obtain ⟨y, hy, hxy⟩ := flattenOne_copy exp n d x hx'
      exact ⟨y, by rw [allNodes]; exact List.mem_append_left _ hy, hxy⟩
    · obtain ⟨y, hy, hxy⟩ := flattenNodes_copy exp rest d x hx'
      exact ⟨y, by rw [allNodes]; exact List.mem_append_right _ hy, hxy⟩

end

/-- Claim C9: the Projector does not alter the forest it is given — in this
pure embedding it cannot mutate it, and every node it emits is the shallow
copy of a node of the input forest that differs only in its `depth` field
(children, `isExpanded` and every task attribute are identical). -/
theorem claim_C9 (expandedIds : List String) (forest : List TaskNode) (x : TaskNode)
    (hx : x ∈ flattenTaskTree forest expandedIds) :
    ∃ y ∈ allNodes forest, x = setDepth y x.depth :=
  flattenNodes_copy expandedIds forest 0 x hx

/-- Witness for C9 on a one-node forest. -/
theorem claim_C9_witness :
    ∃ y ∈ allNodes [TaskNode.mk ⟨"A", none, 0, ""⟩ [] true 5],
      TaskNode.mk ⟨"A", none, 0, ""⟩ [] true 0
        = setDepth y (TaskNode.mk ⟨"A", none, 0, ""⟩ [] true 0).depth :=
  claim_C9 [] [TaskNode.mk ⟨"A", none, 0, ""⟩ [] true 5]
    (TaskNode.mk ⟨"A", none, 0, ""⟩ [] true 0)
    (List.mem_cons_self _ _)

/-! ### Claim C3: flattening with an empty expanded set -/

theorem flatten_build_exp (tasks : List Task) :
    ∀ (fuel : Nat) (exp ids : List String) (d : Nat),
      flattenNodes exp (ids.map (buildNode tasks fuel)) d
        = flattenNodes [] (ids.map (buildNode tasks fuel)) d := by
  intro fuel
  induction fuel with
  | zero =>
    intro exp ids d
    induction ids with
    | nil => rfl
    | cons a ids ih =>
      rw [List.map_cons, flattenNodes, flattenNodes, ih]
      congr 1
      show flattenOne exp (TaskNode.mk (taskOf tasks a) [] true ((pass2 tasks).depthM a)) d
        = flattenOne [] (TaskNode.mk (taskOf tasks a) [] true ((pass2 tasks).depthM a)) d
      rw [flattenOne, flattenOne,
        if_pos (by simp : (exp.contains (taskOf tasks a).id || true) = true),
        if_pos (by simp : (List.contains [] (taskOf tasks a).id || true) = true)]
      rfl
  | succ fuel ihf =>
    intro exp ids d
    induction ids with
    | nil => rfl
    | cons a ids ih =>
      rw [List.map_cons, flattenNodes, flattenNodes, ih]
      congr 1
      show flattenOne exp (TaskNode.mk (taskOf tasks a)
          ((sortIds tasks ((pass2 tasks).childAcc a)).map (buildNode tasks fuel)) true
          ((pass2 tasks).depthM a)) d
        = flattenOne [] (TaskNode.mk (taskOf tasks a)
          ((sortIds tasks ((pass2 tasks).childAcc a)).map (buildNode tasks fuel)) true
          ((pass2 tasks).depthM a)) d
      rw [flattenOne, flattenOne,
        if_pos (by simp : (exp.contains (taskOf tasks a).id || true) = true),
        if_pos (by simp : (List.contains [] (taskOf tasks a).id || true) = true)]
      rw [ihf exp _ (d + 1)]

mutual

theorem flattenOne_depth_ge (exp : List String) :
    ∀ (n : TaskNode) (d : Nat) (x : TaskNode), x ∈ flattenOne exp n d → d ≤ x.depth
  | .mk t cs e d0, d, x, hx => by
    rw [flattenOne] at hx
    rcases List.mem_cons.mp hx with rfl | hx'
    · exact le_refl _
    · by_cases hc : (exp.contains t.id || e) = true
      · rw [if_pos hc] at hx'
        exact Nat.le_of_succ_le (flattenNodes_depth_ge exp cs (d + 1) x hx')
      · rw [if_neg hc] at hx'
        cases hx'

theorem flattenNodes_depth_ge (exp : List String) :
    ∀ (ns : List TaskNode) (d : Nat) (x : TaskNode), x ∈ flattenNodes exp ns d → d ≤ x.depth
  | [], _, x, hx => by cases hx
  | n :: rest, d, x, hx => by
    rw [flattenNodes] at hx
    rcases List.mem_append.mp hx with hx' | hx'
    · exact flattenOne_depth_ge exp n d x hx'
    · exact flattenNodes_depth_ge exp rest d x hx'

end

theorem flattenNodes_filter_depth (exp : List String) :
    ∀ (ns : List TaskNode) (d : Nat),
      (flattenNodes exp ns d).filter (fun n => n.depth == d)
        = ns.map (fun n => setDepth n d) := by
  intro ns
  induction ns with
  | nil => intro d; rfl
  | cons n rest ih =>
    intro d
    rcases n with ⟨t, cs, e, d0⟩
    rw [flattenNodes, flattenOne, List.filter_append, List.filter_cons]
    have hhead : ((TaskNode.mk t cs e d).depth == d) = true := by
      simp [TaskNode.depth]
    rw [if_pos hhead]
    have htail : (if (exp.contains t.id || e) = true
          then flattenNodes exp cs (d + 1) else []).filter (fun n => n.depth == d)
        = [] := by
      rw [List.filter_eq_nil_iff]
      intro x hx
      by_cases hc : (exp.contains t.id || e) = true
      · rw [if_pos hc] at hx
        have hge := flattenNodes_depth_ge exp cs (d + 1) x hx
        have hne : x.depth ≠ d := by omega
        simp [hne]
      · rw [if_neg hc] at hx
        cases hx
    rw [htail, ih d]
    rfl

theorem buildTaskTree_order_pairwise (tasks : List Task) :
    ((buildTaskTree tasks).map TaskNode.task_order).Pairwise (· ≤ ·) := by
  unfold buildTaskTree
  rw [List.map_map]
  rw [List.pairwise_map]
  refine (sortIds_sorted tasks (pass2 tasks).rootIds).imp ?_
  intro a b hab
  simpa [Function.comp, buildNode_order] using hab

/-- Counterexample to claim C3 as stated: on the acyclic two-task collection
`P` with child `C` (unique ids), flattening the built forest with the EMPTY
expanded set emits both nodes — the non-root `C` included — because the
Builder defaults every node's `isExpanded` to `true` and the Projector also
recurses when that flag is set; the claim's predicted length (number of
roots, 1) is wrong. -/
theorem claim_C3_counterexample :
    ((List.map Task.id [(⟨"P", none, 0, ""⟩ : Task), ⟨"C", some "P", 1, ""⟩]).Nodup
      ∧ rankCertB [(⟨"P", none, 0, ""⟩ : Task), ⟨"C", some "P", 1, ""⟩]
          (fun s => if s = "C" then 1 else 0) = true)
    ∧ (flattenTaskTree
        (buildTaskTree [(⟨"P", none, 0, ""⟩ : Task), ⟨"C", some "P", 1, ""⟩]) []).map
          TaskNode.id = ["P", "C"]
    ∧ (buildTaskTree [(⟨"P", none, 0, ""⟩ : Task), ⟨"C", some "P", 1, ""⟩]).length = 1 := by
  decide

/-- Claim C3 (amended): because the Builder marks every node
`isExpanded = true` and the Projector recurses when either the expanded set
or that flag allows it, flattening the built forest is independent of the
expanded-id set — the empty set yields the same full pre-order sequence as
any other set, not just the roots.  The root-level nodes are exactly the
depth-0 entries of that sequence, in ascending `task_order`. -/
theorem claim_C3 (tasks : List Task) (expandedIds : List String) :
    flattenTaskTree (buildTaskTree tasks) expandedIds
      = flattenTaskTree (buildTaskTree tasks) []
    ∧ (flattenTaskTree (buildTaskTree tasks) []).filter (fun n => n.depth == 0)
      = (buildTaskTree tasks).map (fun n => setDepth n 0)
    ∧ ((buildTaskTree tasks).map TaskNode.task_order).Pairwise (· ≤ ·) :=
  ⟨flatten_build_exp tasks _ expandedIds _ 0,
   flattenNodes_filter_depth [] _ 0,
   buildTaskTree_order_pairwise tasks⟩

/-! ### Claim C5: the fully-expanded flattening -/

theorem flatMap_congr {α β : Type} {l : List α} {f g : α → List β}
    (h : ∀ a ∈ l, f a = g a) : l.flatMap f = l.flatMap g := by
  induction l with
  | nil => rfl
  | cons a l ih =>
    rw [List.flatMap_cons, List.flatMap_cons, h a (List.mem_cons_self a l),
      ih (fun a' ha' => h a' (List.mem_cons_of_mem a ha'))]

theorem sum_map_indicator {α : Type} (l : List α) (p : α → Prop) [DecidablePred p] :
    (l.map (fun a => if p a then 1 else 0)).sum = l.countP (fun a => p a) := by
  induction l with
  | nil => rfl
  | cons a l ih =>
    rw [List.map_cons, List.sum_cons, List.countP_cons, ih]
    by_cases h : p a
    · simp [h]
      omega
    · simp [h]

/-- The id sequence of the flattened materialised forest is the
concatenation of the per-root pre-order id sequences. -/
theorem flatten_build_ids (tasks : List Task) :
    ∀ (fuel : Nat) (exp ids : List String) (d : Nat),
      (flattenNodes exp (ids.map (buildNode tasks fuel)) d).map TaskNode.id
        = ids.flatMap (reachIds tasks fuel) := by
  intro fuel
  induction fuel with
  | zero =>
    intro exp ids d
    induction ids with
    | nil => rfl
    | cons a ids ih =>
      rw [List.map_cons, flattenNodes, List.map_append, ih]
      congr 1
      show (flattenOne exp (TaskNode.mk (taskOf tasks a) [] true
          ((pass2 tasks).depthM a)) d).map TaskNode.id = reachIds tasks 0 a
      rw [flattenOne,
        if_pos (by simp : (exp.contains (taskOf tasks a).id || true) = true)]
      show [(TaskNode.mk (taskOf tasks a) [] true d).id] = [a]
      rw [show (TaskNode.mk (taskOf tasks a) [] true d).id = (taskOf tasks a).id from rfl,
        taskOf_id]
  | succ fuel ihf =>
    intro exp ids d
    induction ids with
    | nil => rfl
    | cons a ids ih =>
      rw [List.map_cons, flattenNodes, List.map_append, ih]
      congr 1
      show (flattenOne exp (TaskNode.mk (taskOf tasks a)
          ((sortIds tasks ((pass2 tasks).childAcc a)).map (buildNode tasks fuel)) true
          ((pass2 tasks).depthM a)) d).map TaskNode.id = reachIds tasks (fuel + 1) a
      rw [flattenOne,
        if_pos (by simp : (exp.contains (taskOf tasks a).id || true) = true)]
      rw [List.map_cons, ihf exp _ (d + 1)]
      rw [show (TaskNode.mk (taskOf tasks a)
          ((sortIds tasks ((pass2 tasks).childAcc a)).map (buildNode tasks fuel)) true
          d).id = (taskOf tasks a).id from rfl, taskOf_id]
      rfl

/-- Ids lying in the builder's resolvable-parent domain are task ids. -/
theorem bpm_dom_hasId (tasks : List Task) {c p : String}
    (h : bparentFn tasks c = some p) : hasId tasks c = true := by
  obtain ⟨hpm, -⟩ := bparentFn_sub tasks h
  obtain ⟨t, ht, rfl, -⟩ := parentMapFn_some tasks c p hpm
  exact (hasId_iff tasks t.id).mpr ⟨t, ht, rfl⟩

/-- Elements of a builder ancestor chain are task ids. -/
theorem ancTree_tasks (tasks : List Task) (rank : String → Nat)
    (hc : rankCert tasks rank) :
    ∀ x a, a ∈ ancTree tasks x → hasId tasks a = true := by
  intro x a ha
  rw [ancTree_recur tasks rank hc] at ha
  cases hb : bparentFn tasks x with
  | none => rw [hb] at ha; cases ha
  | some q =>
    rw [hb] at ha
    have hq : hasId tasks q = true := (bparentFn_sub tasks hb).2
    rcases List.mem_cons.mp ha with rfl | ha'
    · exact hq
    · -- recurse along the chain; use strong induction on rank
      clear hb
      revert ha'
      have : ∀ k y, rank y ≤ k → hasId tasks y = true →
          ∀ b, b ∈ ancTree tasks y → hasId tasks b = true := by
        intro k
        induction k with
        | zero =>
          intro y hk hy b hb'
          rw [ancTree_recur tasks rank hc] at hb'
          cases hby : bparentFn tasks y with
          | none => rw [hby] at hb'; cases hb'
          | some q' =>
            have := rankCert_dec_b tasks rank hc y q' hby
            omega
        | succ k ih =>
          intro y hk hy b hb'
          rw [ancTree_recur tasks rank hc] at hb'
          cases hby : bparentFn tasks y with
          | none => rw [hby] at hb'; cases hb'
          | some q' =>
            rw [hby] at hb'
            have hq' : hasId tasks q' = true := (bparentFn_sub tasks hby).2
            rcases List.mem_cons.mp hb' with rfl | hb''
            · exact hq'
            · have hrk := rankCert_dec_b tasks rank hc y q' hby
              exact ih q' (by omega) hq' b hb''
      intro ha'
      exact this (rank q) q (le_refl _) hq a ha'

/-- How many children of `id` lie on the chain `x :: ancTree x`: exactly one
when `id` is a proper ancestor-chain element of `x`, none otherwise. -/
theorem key_count (tasks : List Task) (rank : String → Nat)
    (hN : (tasks.map Task.id).Nodup) (hc : rankCert tasks rank) :
    ∀ x id, ((pass2 tasks).childAcc id).countP
        (fun c => decide (c = x ∨ c ∈ ancTree tasks x))
      = if x ≠ id ∧ id ∈ ancTree tasks x then 1 else 0 := by
  have hdec := rankCert_dec_b tasks rank hc
  have hrklt : ∀ x a, a ∈ ancTree tasks x → rank a < rank x :=
    fun x a ha => ancFuel_rank_lt (bparentFn tasks) rank hdec _ x a ha
  have hnone : ∀ x id, bparentFn tasks x = none →
      ((pass2 tasks).childAcc id).countP
          (fun c => decide (c = x ∨ c ∈ ancTree tasks x))
        = if x ≠ id ∧ id ∈ ancTree tasks x then 1 else 0 := by
    intro x id hbx
    have hch : ancTree tasks x = [] := by
      rw [ancTree_recur tasks rank hc, hbx]
    rw [hch, if_neg (by simp), List.countP_eq_zero]
    intro c hcm
    have hbc := (childAcc_mem_iff tasks hN c id).mp hcm
    simp only [List.not_mem_nil, or_false, decide_eq_true_eq]
    rintro rfl
    rw [hbx] at hbc
    cases hbc
  have main : ∀ k x, rank x ≤ k → ∀ id,
      ((pass2 tasks).childAcc id).countP
          (fun c => decide (c = x ∨ c ∈ ancTree tasks x))
        = if x ≠ id ∧ id ∈ ancTree tasks x then 1 else 0 := by
    intro k
    induction k with
    | zero =>
      intro x hk id
      cases hbx : bparentFn tasks x with
      | none => exact hnone x id hbx
      | some q =>
        have := hdec x q hbx
        omega
    | succ k ih =>
      intro x hk id
      cases hbx : bparentFn tasks x with
      | none => exact hnone x id hbx
      | some q =>
        have hxq : rank q < rank x := hdec x q hbx
        have hch : ancTree tasks x = q :: ancTree tasks q := by
          rw [ancTree_recur tasks rank hc, hbx]
        by_cases hqid : q = id
        · subst hqid
          have hxid : x ≠ q := by
            intro he
            rw [he] at hxq
            omega
          rw [if_pos ⟨hxid, by rw [hch]; exact List.mem_cons_self q _⟩]
          have hxmem : x ∈ (pass2 tasks).childAcc q :=
            (childAcc_mem_iff tasks hN x q).mpr hbx
          have hcong : ∀ c ∈ (pass2 tasks).childAcc q,
              (decide (c = x ∨ c ∈ ancTree tasks x) = true) ↔ ((c == x) = true) := by
            intro c hcm
            have hbc := (childAcc_mem_iff tasks hN c q).mp hcm
            have hrc : rank q < rank c := hdec c q hbc
            simp only [decide_eq_true_eq, beq_iff_eq]
            constructor
            · rintro (rfl | hcx)
              · rfl
              · exfalso
                rw [hch] at hcx
                rcases List.mem_cons.mp hcx with rfl | hcx'
                · omega
                · have := hrklt q c hcx'
                  omega
            · intro h
              exact Or.inl h
          rw [List.countP_congr hcong, ← List.count_eq_countP]
          have h1 := (List.nodup_iff_count_le_one.mp (childAcc_nodup tasks hN q)) x
          have h2 := List.count_pos_iff.mpr hxmem
          omega
        · have hcong : ∀ c ∈ (pass2 tasks).childAcc id,
              (decide (c = x ∨ c ∈ ancTree tasks x) = true)
                ↔ (decide (c = q ∨ c ∈ ancTree tasks q) = true) := by
            intro c hcm
            have hbc := (childAcc_mem_iff tasks hN c id).mp hcm
            simp only [decide_eq_true_eq]
            rw [hch]
            constructor
            · rintro (rfl | hcx)
              · rw [hbx] at hbc
                cases hbc
                exact absurd rfl hqid
              · exact List.mem_cons.mp hcx
            · intro h
              exact Or.inr (List.mem_cons.mpr h)
          rw [List.countP_congr hcong, ih q (by omega) id]
          have hiff : (q ≠ id ∧ id ∈ ancTree tasks q) ↔ (x ≠ id ∧ id ∈ ancTree tasks x) := by
            rw [hch]
            constructor
            · rintro ⟨-, h'⟩
              refine ⟨?_, List.mem_cons_of_mem q h'⟩
              intro he
              subst he
              have := hrklt q x h'
              omega
            · rintro ⟨-, hmm⟩
              rcases List.mem_cons.mp hmm with he | h'
              · exact absurd he.symm hqid
              · exact ⟨hqid, h'⟩
          rw [if_congr hiff rfl rfl]
  intro x id
  exact main (rank x) x (le_refl _) id

/-- Multiplicity of any id in a pre-order subtree sequence: one when the
subtree root lies on the id's ancestor-or-self chain, zero otherwise. -/
theorem reach_count (tasks : List Task) (rank : String → Nat)
    (hN : (tasks.map Task.id).Nodup) (hc : rankCert tasks rank) :
    ∀ (fuel : Nat) (x id : String), hasId tasks id = true →
      tasks.length + 1 ≤ fuel + rank id →
      (reachIds tasks fuel id).count x
        = if id = x ∨ id ∈ ancTree tasks x then 1 else 0 := by
  have hdec := rankCert_dec_b tasks rank hc
  intro fuel
  induction fuel with
  | zero =>
    intro x id hid hcond
    obtain ⟨t, ht, rfl⟩ := (hasId_iff tasks id).mp hid
    have := hc.2 t ht
    omega
  | succ fuel ih =>
    intro x id hid hcond
    rw [show reachIds tasks (fuel + 1) id
        = id :: (sortIds tasks ((pass2 tasks).childAcc id)).flatMap (reachIds tasks fuel)
      from rfl]
    rw [List.count_cons, List.count_flatMap]
    have hmap : ((sortIds tasks ((pass2 tasks).childAcc id)).map
          (List.count x ∘ reachIds tasks fuel))
        = ((sortIds tasks ((pass2 tasks).childAcc id)).map
          (fun c => if c = x ∨ c ∈ ancTree tasks x then 1 else 0)) := by
      apply List.map_congr_left
      intro c hcm
      have hcm' : c ∈ (pass2 tasks).childAcc id := (sortIds_mem tasks _ c).mp hcm
      have hbc := (childAcc_mem_iff tasks hN c id).mp hcm'
      have hcid : hasId tasks c = true := bpm_dom_hasId tasks hbc
      have hrc : rank id < rank c := hdec c id hbc
      exact ih x c hcid (by omega)
    rw [hmap, sum_map_indicator,
      List.Perm.countP_eq _ (sortIds_perm tasks ((pass2 tasks).childAcc id)),
      key_count tasks rank hN hc x id]
    by_cases hidx : id = x
    · subst hidx
      by_cases hmm2 : id ∈ ancTree tasks id <;> simp [hmm2]
    · have hxid : x ≠ id := Ne.symm hidx
      by_cases hmm2 : id ∈ ancTree tasks x
      · simp [hidx, hmm2, hxid]
      · simp [hidx, hmm2, hxid]

/-- Every id's ancestor-or-self chain meets the Builder's root list exactly
once. -/
theorem roots_countP (tasks : List Task) (rank : String → Nat)
    (hN : (tasks.map Task.id).Nodup) (hc : rankCert tasks rank) :
    ∀ x, hasId tasks x = true →
      (pass2 tasks).rootIds.countP (fun r => decide (r = x ∨ r ∈ ancTree tasks x)) = 1 := by
  have hdec := rankCert_dec_b tasks rank hc
  have hbase : ∀ x, bparentFn tasks x = none → hasId tasks x = true →
      (pass2 tasks).rootIds.countP (fun r => decide (r = x ∨ r ∈ ancTree tasks x)) = 1 := by
    intro x hbx hx
    have hch : ancTree tasks x = [] := by
      rw [ancTree_recur tasks rank hc, hbx]
    have hcong : ∀ r ∈ (pass2 tasks).rootIds,
        (decide (r = x ∨ r ∈ ancTree tasks x) = true) ↔ ((r == x) = true) := by
      intro r hr
      rw [hch]
      simp
    rw [List.countP_congr hcong, ← List.count_eq_countP]
    have hxmem : x ∈ (pass2 tasks).rootIds := (rootIds_mem_iff tasks hN x).mpr ⟨hx, hbx⟩
    have h1 := (List.nodup_iff_count_le_one.mp (rootIds_nodup tasks hN)) x
    have h2 := List.count_pos_iff.mpr hxmem
    omega
  have main : ∀ k x, rank x ≤ k → hasId tasks x = true →
      (pass2 tasks).rootIds.countP (fun r => decide (r = x ∨ r ∈ ancTree tasks x)) = 1 := by
    intro k
    induction k with
    | zero =>
      intro x hk hx
      cases hbx : bparentFn tasks x with
      | none => exact hbase x hbx hx
      | some q =>
        have := hdec x q hbx
        omega
    | succ k ih =>
      intro x hk hx
      cases hbx : bparentFn tasks x with
      | none => exact hbase x hbx hx
      | some q =>
        have hq : hasId tasks q = true := (bparentFn_sub tasks hbx).2
        have hch : ancTree tasks x = q :: ancTree tasks q := by
          rw [ancTree_recur tasks rank hc, hbx]
        have hcong : ∀ r ∈ (pass2 tasks).rootIds,
            (decide (r = x ∨ r ∈ ancTree tasks x) = true)
              ↔ (decide (r = q ∨ r ∈ ancTree tasks q) = true) := by
          intro r hr
          have hroot := (rootIds_mem_iff tasks hN r).mp hr
          simp only [decide_eq_true_eq]
          rw [hch]
          constructor
          · rintro (rfl | hmm)
            · rw [hroot.2] at hbx
              cases hbx
            · exact List.mem_cons.mp hmm
          · intro h
            exact Or.inr (List.mem_cons.mpr h)
        rw [List.countP_congr hcong]
        have hrk := hdec x q hbx
        exact ih q (by omega) hq
  intro x hx
  exact main (rank x) x (le_refl _) hx

/-- The fully-expanded pre-order id sequence of the built forest is a
permutation of the collection's id sequence. -/
theorem build_preorder_perm (tasks : List Task) (rank : String → Nat)
    (hN : (tasks.map Task.id).Nodup) (hc : rankCert tasks rank) :
    ((sortIds tasks (pass2 tasks).rootIds).flatMap
        (reachIds tasks (tasks.length + 1))).Perm (tasks.map Task.id) := by
  rw [List.perm_iff_count]
  intro x
  rw [List.count_flatMap]
  have hmap : ((sortIds tasks (pass2 tasks).rootIds).map
        (List.count x ∘ reachIds tasks (tasks.length + 1)))
      = ((sortIds tasks (pass2 tasks).rootIds).map
        (fun r => if r = x ∨ r ∈ ancTree tasks x then 1 else 0)) := by
    apply List.map_congr_left
    intro r hrm
    have hr : r ∈ (pass2 tasks).rootIds := (sortIds_mem tasks _ r).mp hrm
    have hhas : hasId tasks r = true := ((rootIds_mem_iff tasks hN r).mp hr).1
    exact reach_count tasks rank hN hc (tasks.length + 1) x r hhas (by omega)
  rw [hmap, sum_map_indicator,
    List.Perm.countP_eq _ (sortIds_perm tasks (pass2 tasks).rootIds)]
  by_cases hx : hasId tasks x = true
  · rw [roots_countP tasks rank hN hc x hx]
    obtain ⟨t, ht, rfl⟩ := (hasId_iff tasks x).mp hx
    have h1 := (List.nodup_iff_count_le_one.mp hN) t.id
    have h2 := List.count_pos_iff.mpr (List.mem_map_of_mem Task.id ht)
    omega
  · have hnid : ∀ t ∈ tasks, t.id ≠ x := by
      intro t ht he
      exact hx ((hasId_iff tasks x).mpr ⟨t, ht, he⟩)
    have hax : ancTree tasks x = [] := by
      rw [ancTree_recur tasks rank hc,
        bparentFn_none_nopm tasks (parentMapFn_not_mem tasks x hnid)]
    rw [List.countP_eq_zero.mpr ?hz]
    case hz =>
      intro r hr
      simp only [hax, List.not_mem_nil, or_false, decide_eq_true_eq]
      rintro rfl
      exact hx ((rootIds_mem_iff tasks hN r).mp hr).1
    rw [Eq.comm, List.count_eq_zero]
    intro hmm
    obtain ⟨t, ht, he⟩ := List.mem_map.mp hmm
    exact hnid t ht he

/-- The pre-order sequence is independent of the fuel once the fuel covers
the remaining rank headroom. -/
theorem reachIds_stable (tasks : List Task) (rank : String → Nat)
    (hN : (tasks.map Task.id).Nodup) (hc : rankCert tasks rank) :
    ∀ (k f g : Nat) (id : String), hasId tasks id = true →
      tasks.length ≤ rank id + k → k ≤ f → k ≤ g →
      reachIds tasks f id = reachIds tasks g id := by
  have hdec := rankCert_dec_b tasks rank hc
  intro k
  induction k with
  | zero =>
    intro f g id hid hbound hf hg
    have hkids : (pass2 tasks).childAcc id = [] := by
      rw [List.eq_nil_iff_forall_not_mem]
      intro c hcm
      have hbc := (childAcc_mem_iff tasks hN c id).mp hcm
      have h1 : rank id < rank c := hdec c id hbc
      have hchas : hasId tasks c = true := bpm_dom_hasId tasks hbc
      obtain ⟨t, ht, he⟩ := (hasId_iff tasks c).mp hchas
      have := hc.2 t ht
      rw [he] at this
      omega
    have hconst : ∀ f', reachIds tasks f' id = [id] := by
      intro f'
      cases f' with
      | zero => rfl
      | succ f' =>
        rw [show reachIds tasks (f' + 1) id
            = id :: (sortIds tasks ((pass2 tasks).childAcc id)).flatMap (reachIds tasks f')
          from rfl, hkids]
        rfl
    rw [hconst f, hconst g]
  | succ k ih =>
    intro f g id hid hbound hf hg
    cases f with
    | zero => omega
    | succ f =>
      cases g with
      | zero => omega
      | succ g =>
        rw [show reachIds tasks (f + 1) id
            = id :: (sortIds tasks ((pass2 tasks).childAcc id)).flatMap (reachIds tasks f)
          from rfl,
          show reachIds tasks (g + 1) id
            = id :: (sortIds tasks ((pass2 tasks).childAcc id)).flatMap (reachIds tasks g)
          from rfl]
        congr 1
        apply flatMap_congr
        intro c hcm
        have hbc := (childAcc_mem_iff tasks hN c id).mp ((sortIds_mem tasks _ c).mp hcm)
        exact ih f g c (bpm_dom_hasId tasks hbc)
          (by have := hdec c id hbc; omega) (by omega) (by omega)

/-- The canonical-fuel pre-order sequence satisfies its defining
recurrence. -/
theorem reachIds_fix (tasks : List Task) (rank : String → Nat)
    (hN : (tasks.map Task.id).Nodup) (hc : rankCert tasks rank)
    (id : String) (_hid : hasId tasks id = true) :
    reachIds tasks (tasks.length + 1) id
      = id :: (sortIds tasks ((pass2 tasks).childAcc id)).flatMap
          (reachIds tasks (tasks.length + 1)) := by
  have hdec := rankCert_dec_b tasks rank hc
  rw [show reachIds tasks (tasks.length + 1) id
      = id :: (sortIds tasks ((pass2 tasks).childAcc id)).flatMap
          (reachIds tasks tasks.length)
    from rfl]
  congr 1
  apply flatMap_congr
  intro c hcm
  have hbc := (childAcc_mem_iff tasks hN c id).mp ((sortIds_mem tasks _ c).mp hcm)
  have hchas : hasId tasks c = true := bpm_dom_hasId tasks hbc
  have hcn : rank c ≤ tasks.length := by
    obtain ⟨t, ht, he⟩ := (hasId_iff tasks c).mp hchas
    have := hc.2 t ht
    rw [he] at this
    exact this
  exact reachIds_stable tasks rank hN hc (tasks.length - rank c) _ _ c hchas
    (by omega) (by omega) (by omega)

theorem seg_flatMap {α β : Type} (l : List α) (f : α → List β) {c : α} (hc : c ∈ l) :
    ∃ u v, l.flatMap f = u ++ f c ++ v := by
  obtain ⟨l₁, l₂, rfl⟩ := List.append_of_mem hc
  refine ⟨l₁.flatMap f, l₂.flatMap f, ?_⟩
  rw [List.flatMap_append, List.flatMap_cons]
  simp [List.append_assoc]

/-- The pre-order block of an id is a contiguous segment of the block of any
element of its ancestor-or-self chain. -/
theorem reach_seg (tasks : List Task) (rank : String → Nat)
    (hN : (tasks.map Task.id).Nodup) (hc : rankCert tasks rank) :
    ∀ x r, hasId tasks x = true → (r = x ∨ r ∈ ancTree tasks x) →
      ∃ u v, reachIds tasks (tasks.length + 1) r
        = u ++ reachIds tasks (tasks.length + 1) x ++ v := by
  have hdec := rankCert_dec_b tasks rank hc
  have main : ∀ k x, rank x ≤ k → hasId tasks x = true →
      ∀ r, (r = x ∨ r ∈ ancTree tasks x) →
      ∃ u v, reachIds tasks (tasks.length + 1) r
        = u ++ reachIds tasks (tasks.length + 1) x ++ v := by
    intro k
    induction k with
    | zero =>
      intro x hk hx r hr
      rcases hr with rfl | hr'
      · exact ⟨[], [], by simp⟩
      · rw [ancTree_recur tasks rank hc] at hr'
        cases hbx : bparentFn tasks x with
        | none => rw [hbx] at hr'; cases hr'
        | some q =>
          have := hdec x q hbx
          omega
    | succ k ih =>
      intro x hk hx r hr
      rcases hr with rfl | hr'
      · exact ⟨[], [], by simp⟩
      · rw [ancTree_recur tasks rank hc] at hr'
        cases hbx : bparentFn tasks x with
        | none => rw [hbx] at hr'; cases hr'
        | some q =>
          rw [hbx] at hr'
          have hq : hasId tasks q = true := (bparentFn_sub tasks hbx).2
          have hrkq : rank q < rank x := hdec x q hbx
          have hxk : x ∈ sortIds tasks ((pass2 tasks).childAcc q) :=
            (sortIds_mem tasks _ x).mpr ((childAcc_mem_iff tasks hN x q).mpr hbx)
          obtain ⟨u1, v1, hseg1⟩ :=
            seg_flatMap (sortIds tasks ((pass2 tasks).childAcc q))
              (reachIds tasks (tasks.length + 1)) hxk
          have hqseg : ∃ u v, reachIds tasks (tasks.length + 1) q
              = u ++ reachIds tasks (tasks.length + 1) x ++ v := by
            refine ⟨q :: u1, v1, ?_⟩
            rw [reachIds_fix tasks rank hN hc q hq, hseg1]
            simp [List.append_assoc]
          rcases List.mem_cons.mp hr' with rfl | hr''
          · exact hqseg
          · obtain ⟨u2, v2, hseg2⟩ := ih q (by omega) hq r (Or.inr hr'')
            obtain ⟨u3, v3, hseg3⟩ := hqseg
            refine ⟨u2 ++ u3, v3 ++ v2, ?_⟩
            rw [hseg2, hseg3]
            simp [List.append_assoc]
  intro x r hx hr
  exact main (rank x) x (le_refl _) hx r hr

/-- The pre-order block of any task id is a contiguous segment of the full
flattened id sequence. -/
theorem L_seg (tasks : List Task) (rank : String → Nat)
    (hN : (tasks.map Task.id).Nodup) (hc : rankCert tasks rank)
    (x : String) (hx : hasId tasks x = true) :
    ∃ u v, (sortIds tasks (pass2 tasks).rootIds).flatMap
        (reachIds tasks (tasks.length + 1))
      = u ++ reachIds tasks (tasks.length + 1) x ++ v := by
  have hcp := roots_countP tasks rank hN hc x hx
  have hpos : 0 < (pass2 tasks).rootIds.countP
      (fun r => decide (r = x ∨ r ∈ ancTree tasks x)) := by omega
  obtain ⟨r, hr, hpred⟩ := List.countP_pos_iff.mp hpos
  simp only [decide_eq_true_eq] at hpred
  obtain ⟨u1, v1, hseg1⟩ := reach_seg tasks rank hN hc x r hx hpred
  obtain ⟨u2, v2, hseg2⟩ :=
    seg_flatMap (sortIds tasks (pass2 tasks).rootIds)
      (reachIds tasks (tasks.length + 1)) ((sortIds_mem tasks _ r).mpr hr)
  refine ⟨u2 ++ u1, v1 ++ v2, ?_⟩
  rw [hseg2, hseg1]
  simp [List.append_assoc]

theorem indexOf_append_right (u l : List String) (x : String) (hx : x ∉ u) :
    (u ++ l).indexOf x = u.length + l.indexOf x := by
  induction u with
  | nil => simp
  | cons c u ih =>
    have hcx : (c == x) = false := by
      simp only [beq_eq_false_iff_ne, ne_eq]
      rintro rfl
      exact hx (List.mem_cons_self _ _)
    rw [List.cons_append, List.indexOf_cons, hcx, cond_false,
      ih (fun h => hx (List.mem_cons_of_mem c h)), List.length_cons]
    omega

theorem indexOf_lt_of_seg (L u w : List String) (a d : String)
    (hL : L = u ++ a :: w) (hd : d ∈ w) (hNL : L.Nodup) :
    L.indexOf a < L.indexOf d := by
  subst hL
  rw [List.nodup_append] at hNL
  have hna : a ∉ u := fun h => hNL.2.2 h (List.mem_cons_self a w)
  have hnd : d ∉ u := fun h => hNL.2.2 h (List.mem_cons_of_mem a hd)
  have hda : d ≠ a := by
    have haw : a ∉ w := (List.nodup_cons.mp hNL.2.1).1
    rintro rfl
    exact haw hd
  rw [indexOf_append_right u (a :: w) a hna, indexOf_append_right u (a :: w) d hnd,
    List.indexOf_cons_self, List.indexOf_cons,
    (by simp [Ne.symm hda] : (a == d) = false), cond_false]
  omega

/-- Claim C5: for a collection with unique ids and an acyclicity
certificate, flattening the built forest with every id expanded yields a
sequence of length `|tasks|` whose id order is a valid pre-order traversal:
every id precedes each of its descendants (second conjunct, with ancestry
read through the Builder's resolvable-parent chain), and every id precedes
every descendant of any later sibling, in a sibling list or in the root
list (third conjunct). -/
theorem claim_C5 (tasks : List Task) (rank : String → Nat)
    (hN : (tasks.map Task.id).Nodup) (hc : rankCert tasks rank) :
    (flattenTaskTree (buildTaskTree tasks) (tasks.map Task.id)).length = tasks.length
    ∧ (∀ a b : String, a ∈ ancTree tasks b →
        ((flattenTaskTree (buildTaskTree tasks) (tasks.map Task.id)).map
            TaskNode.id).indexOf a
          < ((flattenTaskTree (buildTaskTree tasks) (tasks.map Task.id)).map
            TaskNode.id).indexOf b)
    ∧ (∀ (l₁ l₂ : List String) (a b d : String),
        ((∃ p, sortIds tasks ((pass2 tasks).childAcc p) = l₁ ++ a :: l₂)
            ∨ sortIds tasks (pass2 tasks).rootIds = l₁ ++ a :: l₂) →
        b ∈ l₂ → (b = d ∨ b ∈ ancTree tasks d) →
        ((flattenTaskTree (buildTaskTree tasks) (tasks.map Task.id)).map
            TaskNode.id).indexOf a
          < ((flattenTaskTree (buildTaskTree tasks) (tasks.map Task.id)).map
            TaskNode.id).indexOf d) := by
  have hdec := rankCert_dec_b tasks rank hc
  have hrklt : ∀ x a, a ∈ ancTree tasks x → rank a < rank x :=
    fun x a ha => ancFuel_rank_lt (bparentFn tasks) rank hdec _ x a ha
  have hLids : (flattenTaskTree (buildTaskTree tasks) (tasks.map Task.id)).map
        TaskNode.id
      = (sortIds tasks (pass2 tasks).rootIds).flatMap
          (reachIds tasks (tasks.length + 1)) :=
    flatten_build_ids tasks (tasks.length + 1) (tasks.map Task.id)
      (sortIds tasks (pass2 tasks).rootIds) 0
  have hperm := build_preorder_perm tasks rank hN hc
  have hLn : ((flattenTaskTree (buildTaskTree tasks) (tasks.map Task.id)).map
      TaskNode.id).Nodup := by
    rw [hLids]
    exact hperm.nodup_iff.mpr hN
  refine ⟨?_, ?_, ?_⟩
  · have h1 : ((flattenTaskTree (buildTaskTree tasks) (tasks.map Task.id)).map
        TaskNode.id).length = (tasks.map Task.id).length := by
      rw [hLids]
      exact hperm.length_eq
    rw [List.length_map, List.length_map] at h1
    exact h1
  · intro a b hab
    obtain ⟨q, hbq⟩ : ∃ q, bparentFn tasks b = some q := by
      cases hbb : bparentFn tasks b with
      | none =>
        rw [ancTree_recur tasks rank hc, hbb] at hab
        cases hab
      | some q => exact ⟨q, rfl⟩
    have hbhas : hasId tasks b = true := bpm_dom_hasId tasks hbq
    have hahas : hasId tasks a = true := ancTree_tasks tasks rank hc b a hab
    have hcount := reach_count tasks rank hN hc (tasks.length + 1) b a hahas (by omega)
    rw [if_pos (Or.inr hab)] at hcount
    have hbmem : b ∈ reachIds tasks (tasks.length + 1) a := by
      rw [← List.count_pos_iff]
      omega
    have hne : b ≠ a := by
      intro he
      have := hrklt b a hab
      rw [he] at this
      omega
    rw [show reachIds tasks (tasks.length + 1) a
        = a :: (sortIds tasks ((pass2 tasks).childAcc a)).flatMap
            (reachIds tasks tasks.length)
      from rfl] at hbmem
    have hbtail : b ∈ (sortIds tasks ((pass2 tasks).childAcc a)).flatMap
        (reachIds tasks tasks.length) := by
      rcases List.mem_cons.mp hbmem with he | h'
      · exact absurd he hne
      · exact h'
    obtain ⟨u, v, hseg⟩ := L_seg tasks rank hN hc a hahas
    apply indexOf_lt_of_seg _ u
      ((sortIds tasks ((pass2 tasks).childAcc a)).flatMap
        (reachIds tasks tasks.length) ++ v) a b ?_ ?_ hLn
    · rw [hLids, hseg,
        show reachIds tasks (tasks.length + 1) a
          = a :: (sortIds tasks ((pass2 tasks).childAcc a)).flatMap
              (reachIds tasks tasks.length)
        from rfl]
      simp [List.append_assoc]
    · exact List.mem_append_left _ hbtail
  · intro l₁ l₂ a b d hdc hb hbd
    have hbhas : hasId tasks b = true := by
      rcases hdc with ⟨p, hp⟩ | hp
      · have hbm : b ∈ sortIds tasks ((pass2 tasks).childAcc p) := by
          rw [hp]
          exact List.mem_append_right _ (List.mem_cons_of_mem a hb)
        exact bpm_dom_hasId tasks
          ((childAcc_mem_iff tasks hN b p).mp ((sortIds_mem tasks _ b).mp hbm))
      · have hbm : b ∈ sortIds tasks (pass2 tasks).rootIds := by
          rw [hp]
          exact List.mem_append_right _ (List.mem_cons_of_mem a hb)
        exact ((rootIds_mem_iff tasks hN b).mp ((sortIds_mem tasks _ b).mp hbm)).1
    have hdmem : d ∈ reachIds tasks (tasks.length + 1) b := by
      have hcount := reach_count tasks rank hN hc (tasks.length + 1) d b hbhas (by omega)
      rw [if_pos hbd] at hcount
      rw [← List.count_pos_iff]
      omega
    have hdfl : d ∈ l₂.flatMap (reachIds tasks (tasks.length + 1)) :=
      List.mem_flatMap.mpr ⟨b, hb, hdmem⟩
    rcases hdc with ⟨p, hp⟩ | hp
    · have hak : a ∈ sortIds tasks ((pass2 tasks).childAcc p) := by
        rw [hp]
        exact List.mem_append_right _ (List.mem_cons_self a l₂)
      have hap := (childAcc_mem_iff tasks hN a p).mp ((sortIds_mem tasks _ a).mp hak)
      have hphas : hasId tasks p = true := (bparentFn_sub tasks hap).2
      obtain ⟨u, v, hseg⟩ := L_seg tasks rank hN hc p hphas
      apply indexOf_lt_of_seg _
        (u ++ p :: l₁.flatMap (reachIds tasks (tasks.length + 1)))
        ((sortIds tasks ((pass2 tasks).childAcc a)).flatMap
            (reachIds tasks tasks.length)
          ++ (l₂.flatMap (reachIds tasks (tasks.length + 1)) ++ v)) a d ?_ ?_ hLn
      · rw [hLids, hseg, reachIds_fix tasks rank hN hc p hphas, hp,
          List.flatMap_append, List.flatMap_cons,
          show reachIds tasks (tasks.length + 1) a
            = a :: (sortIds tasks ((pass2 tasks).childAcc a)).flatMap
                (reachIds tasks tasks.length)
          from rfl]
        simp [List.append_assoc]
      · exact List.mem_append_right _ (List.mem_append_left _ hdfl)
    · apply indexOf_lt_of_seg _
        (l₁.flatMap (reachIds tasks (tasks.length + 1)))
        ((sortIds tasks ((pass2 tasks).childAcc a)).flatMap
            (reachIds tasks tasks.length)
          ++ l₂.flatMap (reachIds tasks (tasks.length + 1))) a d ?_ ?_ hLn
      · rw [hLids, hp, List.flatMap_append, List.flatMap_cons,
          show reachIds tasks (tasks.length + 1) a
            = a :: (sortIds tasks ((pass2 tasks).childAcc a)).flatMap
                (reachIds tasks tasks.length)
          from rfl]
        simp [List.append_assoc]
      · exact List.mem_append_right _ hdfl

/-- Witness for C5 at the three-task chain. -/
theorem claim_C5_witness :
    (flattenTaskTree (buildTaskTree exChainSorted)
        (exChainSorted.map Task.id)).length = exChainSorted.length
    ∧ (∀ a b : String, a ∈ ancTree exChainSorted b →
        ((flattenTaskTree (buildTaskTree exChainSorted)
            (exChainSorted.map Task.id)).map TaskNode.id).indexOf a
          < ((flattenTaskTree (buildTaskTree exChainSorted)
            (exChainSorted.map Task.id)).map TaskNode.id).indexOf b)
    ∧ (∀ (l₁ l₂ : List String) (a b d : String),
        ((∃ p, sortIds exChainSorted ((pass2 exChainSorted).childAcc p) = l₁ ++ a :: l₂)
            ∨ sortIds exChainSorted (pass2 exChainSorted).rootIds = l₁ ++ a :: l₂) →
        b ∈ l₂ → (b = d ∨ b ∈ ancTree exChainSorted d) →
        ((flattenTaskTree (buildTaskTree exChainSorted)
            (exChainSorted.map Task.id)).map TaskNode.id).indexOf a
          < ((flattenTaskTree (buildTaskTree exChainSorted)
            (exChainSorted.map Task.id)).map TaskNode.id).indexOf d) :=
  claim_C5 exChainSorted rankChain (by decide) (rankCert_of_B _ _ (by decide))
